import Mathlib

/-!
Verification of the schema engine in `src/lib/schema.js` of the lounge
object-document mapper.  JavaScript strings are modelled as lists of
Unicode scalar characters (`Str`), JavaScript objects holding schema
tables as insertion-ordered association lists (`Tbl`), and fallible
operations (those that can throw a `TypeError`) as `Except`-valued
functions.  External collaborators that are not part of this repository
(lodash predicates, the `inflection` singularizer, the MD5 digest from
`crypto`) and repository files that are not under `src/`
(`normalize.js`, `schema.utils.js`, `utils.js`) are modelled from the
specification, each with a doc comment saying so.
-/

/-- A JavaScript string, modelled as the list of its Unicode scalar
characters. -/
abbrev Str := List Char

/-- Convert a Lean string literal to the JavaScript string model. -/
def chars (s : String) : Str := s.toList

/-- UTF-8 byte length of a string, as computed by `Buffer.byteLength`
in `getRefKey`. -/
def byteLen (s : Str) : Nat := (s.map Char.utf8Size).sum

/-- An insertion-ordered association list, modelling a JavaScript
object used as a string-keyed table. -/
abbrev Tbl (α : Type) := List (Str × α)

/-- Read the value stored under a key, `obj[k]`; `none` plays the role
of `undefined`. -/
def aget {α : Type} : Tbl α → Str → Option α
  | [], _ => none
  | (k0, v0) :: t, k => if k0 = k then some v0 else aget t k

/-- Store a value under a key, `obj[k] = v`: an existing key keeps its
insertion position, a fresh key is appended. -/
def aset {α : Type} : Tbl α → Str → α → Tbl α
  | [], k, v => [(k, v)]
  | (k0, v0) :: t, k, v => if k0 = k then (k0, v) :: t else (k0, v0) :: aset t k v

/-- JavaScript line-terminator characters: the characters that `.` in a
regular expression without the `s` flag does not match. -/
def isLineTermChar (c : Char) : Bool :=
  c = '\n' || c = '\r' || c = '\u2028' || c = '\u2029'

/-- True when no character of the string is a line terminator. -/
def noLT (s : Str) : Bool := s.all (fun c => !isLineTermChar c)

/-- Truthiness of an optional string under JavaScript coercion:
`undefined`/`null` and the empty string are falsy. -/
def optTruthy (o : Option Str) : Bool :=
  match o with
  | some s => s ≠ []
  | none => false

/-- JavaScript `a || b` for an optional string `a` and default `b`. -/
def jsOr (a : Option Str) (b : Str) : Str :=
  match a with
  | some s => if s = [] then b else s
  | none => b

/-- JavaScript string coercion of a possibly-undefined value, as done
by `String.prototype.concat`: `undefined` turns into the text
`undefined`. -/
def jsStr (o : Option Str) : Str :=
  match o with
  | some s => s
  | none => chars ("undefined")

/-- The test of the anchored pattern built in `getDocumentKeyValue`:
`new RegExp` of caret, the escaped prefix, dot-star, the escaped
suffix, dollar.  It holds exactly when the string splits as
prefix ++ middle ++ suffix with a line-terminator-free middle, since
an unflagged `.` does not match line terminators and the anchors bind
to the whole input. -/
def keyPatTest (P S id : Str) : Bool :=
  P.isPrefixOf id &&
    S.isSuffixOf (id.drop P.length) &&
      noLT ((id.drop P.length).take ((id.drop P.length).length - S.length))

/-- One application of `id.replace` with the pattern anchored at the
start: removes a leading occurrence of `P` when present. -/
def replaceLeadOnce (P s : Str) : Str :=
  if P.isPrefixOf s then s.drop P.length else s

/-- One application of `id.replace` with the pattern anchored at the
end: removes a trailing occurrence of `S` when present. -/
def replaceTrailOnce (S s : Str) : Str :=
  if S.isSuffixOf s then s.take (s.length - S.length) else s

/-- Declared property types as they appear in a lounge descriptor:
the constructor shorthands of `schema.js` (`String`, `Number`, ...)
and their lower-case string aliases collapse to one tag each. -/
inductive TypeTag where
  | stringT
  | numberT
  | objectT
  | booleanT
  | dateT
  | anyT
  deriving DecidableEq, Repr

/-- A JavaScript runtime value as far as the schema tables observe it:
functions and foreign objects are identified by an opaque id. -/
inductive JsVal where
  | undefV
  | nullV
  | boolV (b : Bool)
  | numV (n : Int)
  | strV (s : Str)
  | fnV (id : Nat)
  | objV (id : Nat)
  deriving DecidableEq, Repr

/-- JavaScript truthiness of a `JsVal` (integers model numbers, so NaN
is out of scope; no claim depends on it). -/
def jsTruthy : JsVal → Bool
  | .undefV => false
  | .nullV => false
  | .boolV b => b
  | .numV n => n ≠ 0
  | .strV s => s ≠ []
  | .fnV _ => true
  | .objV _ => true

/-- The lodash `_.isString` test on a `JsVal`. -/
def JsVal.isStr : JsVal → Bool
  | .strV _ => true
  | _ => false

/-- The lodash `_.isFunction` test on a `JsVal`. -/
def JsVal.isFn : JsVal → Bool
  | .fnV _ => true
  | _ => false

/-- A plain-object property descriptor as written by a caller or as
produced by normalization: the fields of `schema.js` and the spec that
the claims exercise (`type`, `key`, `index`, `ref`, and the per-key
`prefix`/`suffix`/`generate` overrides, here named `pfx`/`sfx` ). -/
structure PropObj where
  type : Option TypeTag := none
  key : Bool := false
  index : Bool := false
  ref : Option Str := none
  pfx : Option Str := none
  sfx : Option Str := none
  generate : Option Bool := none
  deriving DecidableEq, Repr

/-- The object argument of `virtual` carrying the accessors; absent
fields are `undefined`. -/
structure VirtOptions where
  get : JsVal := .undefV
  set : JsVal := .undefV
  deriving DecidableEq, Repr

/-- The second argument of `virtual`: a type value, a plain options
object, `undefined`, or any other value. -/
inductive VArg2 where
  | typeV (t : TypeTag)
  | optsV (o : VirtOptions)
  | undefV
  | otherV (v : JsVal)
  deriving DecidableEq, Repr

/-- The third argument of `virtual`. -/
inductive VArg3 where
  | optsV (o : VirtOptions)
  | undefV
  | otherV (v : JsVal)
  deriving DecidableEq, Repr

/-- Falsiness of the third `virtual` argument, for the
`_.isPlainObject(type) && !options` branch. -/
def VArg3.falsy : VArg3 → Bool
  | .optsV _ => false
  | .undefV => true
  | .otherV v => !jsTruthy v

/-- The stored type of a virtual descriptor: either the type value the
caller passed or the string any substituted in the two-argument call
form. -/
inductive VTypeVal where
  | tagV (t : TypeTag)
  | anyStr
  | otherV (v : JsVal)
  deriving DecidableEq, Repr

/-- The descriptor written by `virtual`: type, the getter, optionally
the setter, and the read-only flag set when no setter was given
(`virtual: true` and `invisible: true` are constant in the source and
carried implicitly by this variant). -/
structure VirtualDesc where
  vtype : VTypeVal
  get : JsVal
  set : Option JsVal := none
  readOnly : Bool := false
  deriving DecidableEq, Repr

/-- A raw or normalized property description: a bare type shorthand
such as `String`, a plain descriptor object, or a virtual descriptor.
Nested sub-object and array-wrapper shapes exist in the source but no
claim exercises them, so they are not modelled. -/
inductive RawProp where
  | shorthand (t : TypeTag)
  | obj (o : PropObj)
  | virt (v : VirtualDesc)
  deriving DecidableEq, Repr

/-- A whole raw descriptor: property name to raw property, in
declaration order. -/
abbrev RawDesc := Tbl RawProp

/-- The `refKeyCase` index option, `utils.REF_KEY_CASE`. -/
inductive RefKeyCase where
  | upper
  | lower
  deriving DecidableEq, Repr

/-- The `path` of an index entry: a single property name or an ordered
sequence for a compound index. -/
inductive IndexPath where
  | single (p : Str)
  | multi (ps : List Str)
  deriving DecidableEq, Repr

/-- One entry of `this.indexes`. -/
structure IndexEntry where
  path : IndexPath
  name : Str
  indexType : Str
  compound : Bool
  refKeyCase : Option RefKeyCase := none
  deriving DecidableEq, Repr

/-- One entry of `this.refs` (`schema.utils.getRefs` output); only the
path is observed by the claims. -/
structure RefEntry where
  path : Str
  deriving DecidableEq, Repr

/-- Hook phases accepted by `_hook` via `pre`/`post`. -/
inductive HookPhase where
  | preH
  | postH
  deriving DecidableEq, Repr

/-- One entry of `this.hooks`. -/
structure HookEntry where
  hook : HookPhase
  name : Str
  fns : List JsVal
  deriving DecidableEq, Repr

/-- A configured dynamic-key function: a JavaScript function is pure
here (spec section 5), so it is modelled by its value on a no-argument
call and its one-argument graph. -/
structure DynFn where
  call0 : Str
  call1 : Str → Str

/-- Schema options after the `_.extend` defaulting in the constructor;
the recognized keys the claims touch.  `strict` and `dotNotation`
default to true exactly as the constructor merges them in. -/
structure SchemaOptions where
  strict : Bool := true
  dotNotation : Bool := true
  keyPfx : Option Str := none
  keySfx : Option Str := none
  refIndexKeyPfx : Option Str := none
  delimiter : Option Str := none
  dynamicKey : Option DynFn := none

/-- The `this.key` document-key policy record. -/
structure SchemaKey where
  docKeyKey : Str := []
  pfx : Option Str := none
  sfx : Option Str := none
  generate : Bool := true
  dynamicKey : Option DynFn := none

/-- The schema aggregate: exactly the mutable fields of the `Schema`
class.  The source leaves `descriptor` undefined until the first
`add`; the constructor always calls `add`, so the empty table is a
faithful initial value. -/
structure Schema where
  options : SchemaOptions
  methods : Tbl JsVal := []
  statics : Tbl JsVal := []
  hooks : Tbl HookEntry := []
  refs : Tbl RefEntry := []
  indexes : Tbl IndexEntry := []
  key : SchemaKey := {}
  descriptor : Tbl RawProp := []

/-- A thrown `TypeError`, carrying the message of the source. -/
inductive JsErr where
  | typeError (msg : String)
  deriving DecidableEq, Repr

/-- Couchbase's key-length ceiling used by `getRefKey`
(`MAX_REF_KEY_LENGTH`). -/
def MAX_REF_KEY_LENGTH : Nat := 250

/-- Hexadecimal digit characters, lowest first. -/
def hexDigitChar (m : Nat) : Char := (chars ("0123456789abcdef")).getD m 'x'

/-- Fixed-width big-endian hexadecimal rendering of a number. -/
def hexChars : Nat → Nat → Str
  | 0, _ => []
  | k + 1, n => hexChars k (n / 16) ++ [hexDigitChar (n % 16)]

/-- Modelled from the spec: the MD5 hex digest of the external
`crypto` module (`createHash('md5').update(v).digest('hex')`), a
fixed-length one-way hash.  Only the properties the spec relies on are
kept faithful — determinism and a 32-character lowercase-hex output —
via a concrete 128-bit fold; the theorems below use nothing else about
it. -/
def md5hex (s : Str) : Str :=
  hexChars 32 (s.foldl (fun a c => (a * 131 + c.toNat + 1) % (2 ^ 128)) 7)

/-- Modelled from the spec: the external `inflection.singularize`
word-inflection capability.  The claims only exercise regular plural
nouns and tokens no inflection rule matches, so the regular rule (a
final `s` that is not part of a double `s` is dropped, anything else
is returned unchanged) is modelled. -/
def singularize (p : Str) : Str :=
  if (chars ("ss")).isSuffixOf p then p
  else if (chars ("s")).isSuffixOf p then p.dropLast
  else p

/-- Modelled from the spec: `normalize.js` is not under `src/`.  Per
spec section 4.1 the normalizer turns a type shorthand into a full
descriptor and gives every descriptor an explicit type, defaulting to
the open any type; declared flags (`key`, `index`, `ref`, prefix and
suffix overrides) are carried through unchanged, and a virtual
descriptor is a distinct variant left as is.  Nested and array shapes
are not exercised by any claim and are not modelled. -/
def normalizeProp : RawProp → RawProp
  | .shorthand t => .obj { type := some t }
  | .obj o => .obj { o with type := some (o.type.getD .anyT) }
  | .virt v => .virt v

/-- Modelled from the spec: `schema.utils.getRefs` walks a raw
property map and collects a path entry for every property whose raw
descriptor declares a `ref` target (spec section 4.2). -/
def getRefs (d : RawDesc) : List RefEntry :=
  d.filterMap (fun pe =>
    match pe.2 with
    | .obj o => if o.ref.isSome then some { path := pe.1 } else none
    | _ => none)

/-- Modelled from the spec: `schema.utils.getIndexes` finds every
property flagged `index: true` in the raw property map and emits a
single-property index entry for it (spec section 4.3). -/
def getIndexes (d : RawDesc) : List IndexEntry :=
  d.filterMap (fun pe =>
    match pe.2 with
    | .obj o =>
      if o.index then
        some { path := .single pe.1, name := pe.1,
               indexType := chars ("single"), compound := false }
      else none
    | _ => none)

/-- The string a path coerces to when used as an object key in
`this.indexes[elem.path]`; a JavaScript array joins with commas. -/
def pathKey : IndexPath → Str
  | .single p => p
  | .multi ps => (List.intersperse (chars (",")) ps).flatten

/-- Whether the declared type of a key property fails the check of
`_applyDocumentKey`: a present type that is neither string- nor
number-like (the source compares against `String`, `Number` and their
string aliases; a missing type is falsy and skips the check). -/
def badKeyType : Option TypeTag → Bool
  | some t => !(t = .stringT || t = .numberT)
  | none => false

/-- The state update of `_applyDocumentKey` once a key property has
passed validation: generation is switched off (then overridden by an
explicit boolean `generate`), the property becomes the document key,
string `prefix`/`suffix` fields override the key policy, and the
property's descriptor is re-normalized in place. -/
def applyKeyProp (s : Schema) (prop : Str) (o : PropObj) : Schema :=
  let key1 : SchemaKey :=
    { s.key with
      generate := (match o.generate with | some b => b | none => false),
      docKeyKey := prop,
      pfx := (match o.pfx with | some p => some p | none => s.key.pfx),
      sfx := (match o.sfx with | some q => some q | none => s.key.sfx) }
  { s with key := key1,
           descriptor := aset s.descriptor prop (normalizeProp (.obj o)) }

/-- The property scan of `_applyDocumentKey`: walk the property names
in insertion order, validating and applying every plain-object
property with `key === true`; the boolean carries `docKeyFound`. -/
def applyDKLoop : Schema → Bool → List Str → Except JsErr (Schema × Bool)
  | s, found, [] => .ok (s, found)
  | s, found, prop :: rest =>
    match aget s.descriptor prop with
    | some (.obj o) =>
      if o.key then
        if o.index then
          .error (.typeError "Schema key cannot be index field")
        else if o.ref.isSome then
          .error (.typeError "Schema key cannot be reference property")
        else if badKeyType o.type then
          .error (.typeError "Schema expects key to be a String or a Number")
        else applyDKLoop (applyKeyProp s prop o) true rest
      else applyDKLoop s found rest
    | _ => applyDKLoop s found rest

/-- `_applyDocumentKey`: scan the descriptor for the document key and,
when none was found and none is recorded, synthesize an `id` property
of string type (leaving key generation enabled). -/
def applyDocumentKey (s : Schema) : Except JsErr Schema := do
  let (s1, found) ← applyDKLoop s false (s.descriptor.map Prod.fst)
  if found = false ∧ s1.key.docKeyKey = [] then
    .ok { s1 with
          key := { s1.key with docKeyKey := chars ("id") },
          descriptor := aset s1.descriptor (chars ("id"))
            (normalizeProp (.shorthand .stringT)) }
  else .ok s1

/-- The two-argument form `add(key, descriptor)`.  The extractors
receive the bare property description; a bare description is not a
property map, so they collect nothing from it (see `getRefs`).  An
empty-string key is falsy, so neither `add` branch fires and only
`_applyDocumentKey` runs. -/
def Schema.add (s : Schema) (k : Str) (d : RawProp) : Except JsErr Schema :=
  if k = [] then applyDocumentKey s
  else
    applyDocumentKey
      { s with descriptor := aset s.descriptor k (normalizeProp d) }

/-- The mutations of the one-argument `add(descriptorMap)` form that
precede `_applyDocumentKey`: register references and indexes read off
the raw input and normalize every property into the descriptor. -/
def addObjPre (s : Schema) (d : RawDesc) : Schema :=
  { s with
    refs := (getRefs d).foldl (fun r e => aset r e.path e) s.refs,
    indexes := (getIndexes d).foldl (fun r e => aset r (pathKey e.path) e) s.indexes,
    descriptor := d.foldl (fun acc pe => aset acc pe.1 (normalizeProp pe.2)) s.descriptor }

/-- The one-argument form `add(descriptorMap)`: the pre-processing
above, then re-derivation of the document key. -/
def Schema.addObj (s : Schema) (d : RawDesc) : Except JsErr Schema :=
  applyDocumentKey (addObjPre s d)

/-- The tail of the constructor: the schema-level
`keyPrefix`/`dynamicKey`/`keySuffix` fallbacks, guarded by the
falsiness of what `add` recorded on the key policy. -/
def constructorKeyFallbacks (s : Schema) : Schema :=
  let k1 := if !optTruthy s.key.pfx && s.options.keyPfx.isSome then
      { s.key with pfx := s.options.keyPfx } else s.key
  let k2 := match s.options.dynamicKey with
    | some f => { k1 with dynamicKey := some f }
    | none => k1
  let k3 := if !optTruthy k2.sfx && s.options.keySfx.isSome then
      { k2 with sfx := s.options.keySfx } else k2
  { s with key := k3 }

/-- The `Schema` constructor: option defaulting (the default fields of
`SchemaOptions`), empty tables, the initial key policy, `add`, then
the key fallbacks. -/
def mkSchema (descriptor : RawDesc) (options : SchemaOptions) : Except JsErr Schema := do
  let s1 ← Schema.addObj { options := options } descriptor
  pure (constructorKeyFallbacks s1)

/-- The JavaScript regular expression `^\d+$` bound to
`trailingDigitReg` in the source: despite its name it matches only
names made entirely of digits. -/
def isAllDigits (p : Str) : Bool := p ≠ [] && p.all Char.isDigit

/-- JavaScript string indexing `s[i]`: a one-character string inside
the bounds, `undefined` outside them. -/
def jsCharAt (s : Str) (i : Int) : Option Str :=
  if h : 0 ≤ i ∧ i.toNat < s.length then some [s.get ⟨i.toNat, h.2⟩] else none

/-- JavaScript `p.replace(dot, underscore)` with a string pattern:
only the first occurrence is replaced. -/
def replaceFirstDot : Str → Str
  | [] => []
  | c :: t => if c = '.' then '_' :: t else c :: replaceFirstDot t

/-- Modelled from the spec: `schema.utils.getIndexName` is not under
`src/`; per spec section 4.3 the normalized components are joined into
one index name by a deterministic separator rule, modelled as an
underscore join. -/
def getIndexName (ps : List Str) : Str := (List.intersperse (chars ("_")) ps).flatten

/-- The name inference of `index` for a single property: an
all-digits name is replaced by its second-to-last character
(`undefined` when out of range, on which the external singularizer
throws), then singularized. -/
def inferSingleIndexName (p : Str) : Except JsErr Str :=
  if isAllDigits p then
    match jsCharAt p ((p.length : Int) - 2) with
    | some c => .ok (singularize c)
    | none => .error (.typeError "inflection.singularize expects a string")
  else .ok (singularize p)

/-- The per-component name inference of `index` for a compound
property list: the all-digits replacement, then the first dot is
replaced by an underscore (a `replace` call that throws on
`undefined`), then singularization. -/
def inferCompoundComponent (p : Str) : Except JsErr Str :=
  match (if isAllDigits p then jsCharAt p ((p.length : Int) - 2) else some p) with
  | some q => .ok (singularize (replaceFirstDot q))
  | none => .error (.typeError "Cannot read properties of undefined")

/-- The options argument of `index`. -/
structure IndexOptions where
  indexName : Option Str := none
  indexType : Option Str := none
  refKeyCase : Option RefKeyCase := none
  deriving Repr

/-- `index(prop, options)`: resolve the index type and name (explicit
name when truthy, otherwise inferred), build the entry with the path
exactly as given, and store it under the resolved name. -/
def Schema.index (s : Schema) (prop : IndexPath) (opts : IndexOptions) :
    Except JsErr Schema :=
  let indexType := jsOr opts.indexType (chars ("single"))
  let explicitName : Option Str :=
    match opts.indexName with
    | some n => if n = [] then none else some n
    | none => none
  let nameRes : Except JsErr (Str × Bool) :=
    match prop with
    | .multi ps =>
      match explicitName with
      | some n => .ok (n, true)
      | none =>
        match ps.mapM inferCompoundComponent with
        | .ok comps => .ok (getIndexName comps, true)
        | .error e => .error e
    | .single p =>
      match explicitName with
      | some n => .ok (n, false)
      | none =>
        match inferSingleIndexName p with
        | .ok n => .ok (n, false)
        | .error e => .error e
  match nameRes with
  | .error e => .error e
  | .ok (indexName, compound) =>
    let entry : IndexEntry :=
      { path := prop, name := indexName, indexType := indexType,
        compound := compound, refKeyCase := opts.refKeyCase }
    .ok { s with indexes := aset s.indexes indexName entry }

/-- The first argument of `method`/`static`: a string name, a
plain-object map of names to values, or any other value. -/
inductive NameArg where
  | strN (s : Str)
  | mapN (m : Tbl JsVal)
  | otherN (v : JsVal)

/-- The non-map branch of `method`: a non-string name or a
non-function handle throws before anything is stored. -/
def methodOne (s : Schema) (name : JsVal) (func : JsVal) : Except JsErr Schema :=
  if !name.isStr then
    .error (.typeError "Schema#method expects a string identifier as a function name")
  else if !func.isFn then
    .error (.typeError "Schema#method expects a function as a handle")
  else
    match name with
    | .strV n => .ok { s with methods := aset s.methods n func }
    | _ => .error (.typeError "Schema#method expects a string identifier as a function name")

/-- `method(name, func)`: a plain-object map recurses entry-wise with
the key as the name, otherwise the single registration runs. -/
def Schema.method (s : Schema) (name : NameArg) (func : JsVal) : Except JsErr Schema :=
  match name with
  | .mapN m => m.foldlM (fun acc pe => methodOne acc (.strV pe.1) pe.2) s
  | .strN n => methodOne s (.strV n) func
  | .otherN v => methodOne s v func

/-- The non-map branch of `static`: only the name is validated; the
handle may be any value (the source documents static properties such
as `static('FOO', 'bar')`). -/
def staticOne (s : Schema) (name : JsVal) (func : JsVal) : Except JsErr Schema :=
  if !name.isStr then
    .error (.typeError "Schema#statics expects a string identifier as a function name")
  else
    match name with
    | .strV n => .ok { s with statics := aset s.statics n func }
    | _ => .error (.typeError "Schema#statics expects a string identifier as a function name")

/-- `static(name, val)`: map form recurses, otherwise the single
registration runs. -/
def Schema.static (s : Schema) (name : NameArg) (func : JsVal) : Except JsErr Schema :=
  match name with
  | .mapN m => m.foldlM (fun acc pe => staticOne acc (.strV pe.1) pe.2) s
  | .strN n => staticOne s (.strV n) func
  | .otherN v => staticOne s v func

/-- The type value of the second `virtual` argument as stored in the
built descriptor. -/
def VArg2.asTypeVal : VArg2 → VTypeVal
  | .typeV t => .tagV t
  | .optsV _ => .otherV (.objV 0)
  | .undefV => .otherV .undefV
  | .otherV v => .otherV v

/-- The descriptor write of `virtual`: the getter is stored as given,
a truthy setter is stored, and absent a truthy setter the virtual
becomes read-only. -/
def buildVirtual (s : Schema) (n : Str) (tv : VTypeVal) (o : VirtOptions) : Schema :=
  let vd : VirtualDesc :=
    if jsTruthy o.set then { vtype := tv, get := o.get, set := some o.set }
    else { vtype := tv, get := o.get, readOnly := true }
  { s with descriptor := aset s.descriptor n (.virt vd) }

/-- `virtual(name, type, options)`: a non-string name throws; when the
type slot holds a plain object and the options slot is falsy, the
object is taken as the options with type the string any and no getter
check runs; otherwise a non-object options throws, then a missing
getter function throws. -/
def Schema.virtual (s : Schema) (name : JsVal) (vtype : VArg2) (options : VArg3) :
    Except JsErr Schema :=
  match name with
  | .strV n =>
    match vtype, options with
    | .optsV o, opt3 =>
      if opt3.falsy then .ok (buildVirtual s n .anyStr o)
      else
        match opt3 with
        | .optsV o3 =>
          if !o3.get.isFn then
            .error (.typeError "Schema#virtual expects an object with a get function")
          else .ok (buildVirtual s n (VArg2.asTypeVal (.optsV o)) o3)
        | _ => .error (.typeError "Schema#virtual expects an object as a handle")
    | t2, .optsV o3 =>
      if !o3.get.isFn then
        .error (.typeError "Schema#virtual expects an object with a get function")
      else .ok (buildVirtual s n (VArg2.asTypeVal t2) o3)
    | _, _ => .error (.typeError "Schema#virtual expects an object as a handle")
  | _ => .error (.typeError "Schema#virtual expects a string identifier as a property name")

/-- The key of `this.hooks` for a phase and event name,
`hook + colon + name`. -/
def hookKey (ph : HookPhase) (n : Str) : Str :=
  (match ph with | .preH => chars ("pre") | .postH => chars ("post")) ++ [':'] ++ n

/-- `_hook`: append to an existing registration's function list or
create a fresh entry. -/
def Schema.hookAdd (s : Schema) (ph : HookPhase) (n : Str) (fn : JsVal) : Schema :=
  match aget s.hooks (hookKey ph n) with
  | some h =>
    { s with hooks := aset s.hooks (hookKey ph n) { h with fns := h.fns ++ [fn] } }
  | none =>
    { s with hooks := aset s.hooks (hookKey ph n) { hook := ph, name := n, fns := [fn] } }

/-- The `id` argument of `getDocumentKeyValue`: a string or any
non-string value (returned unchanged by the source). -/
inductive KeyArg where
  | strA (s : Str)
  | otherA (n : Nat)
  deriving DecidableEq, Repr

/-- `getDocumentKeyValue(id, full)`: non-strings pass through; for a
string the anchored prefix/suffix pattern decides between returning or
expanding (with the dynamic key applied on the full path) and between
stripping or returning. -/
def Schema.getDocumentKeyValue (s : Schema) (id : KeyArg) (full : Bool) : KeyArg :=
  match id with
  | .otherA n => .otherA n
  | .strA i =>
    let P := match s.key.pfx with | some p => p | none => []
    let S := match s.key.sfx with | some q => q | none => []
    let test := keyPatTest P S i
    if full then
      if test then
        match s.key.dynamicKey with
        | some f => .strA (f.call1 i)
        | none => .strA i
      else
        match s.key.dynamicKey with
        | some f => .strA (f.call1 (P ++ i ++ S))
        | none => .strA (P ++ i ++ S)
    else
      if test then .strA (replaceTrailOnce S (replaceLeadOnce P i))
      else .strA i

/-- The case folding `getRefKey` applies to the value when the index
registered under the name carries a `refKeyCase`. -/
def refKeyCaseApply (s : Schema) (name v : Str) : Str :=
  match aget s.indexes name with
  | some idx =>
    match idx.refKeyCase with
    | some .upper => v.map Char.toUpper
    | some .lower => v.map Char.toLower
    | none => v
  | none => v

/-- `getRefKey(name, v)`: the key prefix (or the no-argument dynamic
key), the reference-index prefix, the name and the delimiter form the
full prefix; a value pushing the UTF-8 byte length over the ceiling is
replaced by its tagged MD5 digest. -/
def Schema.getRefKey (s : Schema) (name v : Str) : Str :=
  let d := jsStr s.options.delimiter
  let kp :=
    match s.options.dynamicKey with
    | some f => f.call0
    | none => jsOr s.options.keyPfx []
  let v1 := refKeyCaseApply s name v
  let fullPfx := kp ++ jsOr s.options.refIndexKeyPfx [] ++ name ++ d
  if byteLen (fullPfx ++ v1) > MAX_REF_KEY_LENGTH then
    fullPfx ++ (chars ("hashed_") ++ md5hex v1)
  else fullPfx ++ v1

/-- `hasRefPath(path)`: case-insensitive membership of a truthy path
among the registered reference paths. -/
def Schema.hasRefPath (s : Schema) (path : Str) : Bool :=
  path ≠ [] &&
    s.refs.any (fun pe => pe.2.path.map Char.toLower = path.map Char.toLower)

/-- The argument of `extend`: a `Schema` instance or any other value
(the `other instanceof Schema` guard skips the whole body for the
latter). -/
inductive ExtendArg where
  | schemaA (s : Schema)
  | otherA (v : JsVal)

/-- The value JavaScript reads at `obj[k]`: the stored value, or
`undefined` for an absent key. -/
def jsGet (t : Tbl JsVal) (k : Str) : JsVal := (aget t k).getD .undefV

/-- `_cloneProp` for `statics` and `methods`: each entry of the donor
whose slot on the receiver is falsy is assigned; an existing truthy
slot is kept. -/
def clonePropAssign (mine theirs : Tbl JsVal) : Tbl JsVal :=
  theirs.foldl
    (fun acc pe => if jsTruthy (jsGet acc pe.1) then acc else aset acc pe.1 pe.2)
    mine

/-- `_cloneProp` for `descriptor`: each donor property absent on the
receiver is re-added through `add` (descriptor entries are objects,
always truthy, so the falsy test is absence). -/
def clonePropAdd (this other : Schema) : Except JsErr Schema :=
  other.descriptor.foldlM
    (fun acc pe =>
      if (aget acc.descriptor pe.1).isSome then pure acc else acc.add pe.1 pe.2)
    this

/-- The options loop of `extend`: a key undefined on the receiver is
copied from the donor; none of the modelled option values is a plain
object, so the deep-merge branch of the source never applies to
them, and a key defined on the receiver is kept. -/
def mergeOptionsOnExtend (ours theirs : SchemaOptions) : SchemaOptions :=
  { strict := ours.strict,
    dotNotation := ours.dotNotation,
    keyPfx := (match ours.keyPfx with | some p => some p | none => theirs.keyPfx),
    keySfx := (match ours.keySfx with | some p => some p | none => theirs.keySfx),
    refIndexKeyPfx :=
      (match ours.refIndexKeyPfx with | some p => some p | none => theirs.refIndexKeyPfx),
    delimiter := (match ours.delimiter with | some p => some p | none => theirs.delimiter),
    dynamicKey := (match ours.dynamicKey with | some f => some f | none => theirs.dynamicKey) }

/-- The hooks loop of `extend`: every registered function of the donor
is re-registered through the normal `pre`/`post` path, preserving
order. -/
def replayHooks (this : Schema) (hooks : Tbl HookEntry) : Schema :=
  hooks.foldl
    (fun acc pe => pe.2.fns.foldl (fun a fn => a.hookAdd pe.2.hook pe.2.name fn) acc)
    this

/-- The body of `extend` on a `Schema` donor: copy descriptor
(through `add`), statics and methods without overwriting, merge
options, and replay hooks. -/
def extendSchema (this o : Schema) : Except JsErr Schema := do
  let s1 ← clonePropAdd this o
  let s2 := { s1 with statics := clonePropAssign s1.statics o.statics }
  let s3 := { s2 with methods := clonePropAssign s2.methods o.methods }
  let s4 := { s3 with options := mergeOptionsOnExtend s3.options o.options }
  pure (replayHooks s4 o.hooks)

/-- `extend(other)`: the instance check sends a `Schema` donor through
the merge; any other argument leaves the receiver untouched. -/
def Schema.extend (this : Schema) (other : ExtendArg) : Except JsErr Schema :=
  match other with
  | .otherA _ => .ok this
  | .schemaA o => extendSchema this o

/-- Descriptor used by the concrete instances below: a single string
property named `name`. -/
def demoDesc : RawDesc := [(chars ("name"), .shorthand .stringT)]

/-- Options with key prefix `p` used by the newline counterexamples. -/
def pfxOnlyOpts : SchemaOptions := { keyPfx := some (chars ("p")) }

/-- A schema with key prefix `user::` used by witnesses; its key
policy is what the constructor records for
`lounge.schema(demoDesc, keyPrefix user::)`. -/
def wSchemaUser : Schema :=
  { options := { keyPfx := some (chars ("user::")), delimiter := some (chars ("::")) },
    key := { docKeyKey := chars ("id"), pfx := some (chars ("user::")) },
    descriptor :=
      [(chars ("name"), .obj { type := some .stringT }),
       (chars ("id"), .obj { type := some .stringT })] }

/-- Options with key prefix `q` used by the round-trip
counterexample. -/
def pfxOnlyOptsQ : SchemaOptions := { keyPfx := some (chars ("q")) }

/-- The full prefix `getRefKey` builds before the value: key prefix
(or no-argument dynamic key), reference-index prefix, index name,
delimiter. -/
def refFullPfx (s : Schema) (name : Str) : Str :=
  (match s.options.dynamicKey with
    | some f => f.call0
    | none => jsOr s.options.keyPfx []) ++
    jsOr s.options.refIndexKeyPfx [] ++ name ++ jsStr s.options.delimiter

/-- Options for the reference-key instances: key prefix `user::` and
delimiter `::`, as the lounge framework configures them. -/
def refOpts : SchemaOptions :=
  { keyPfx := some (chars ("user::")), delimiter := some (chars ("::")) }

/-- Whether an operation returned without throwing. -/
def isOkB {α : Type} : Except JsErr α → Bool
  | .ok _ => true
  | .error _ => false

/-- A key property also marked as an index. -/
def keyIndexProp : PropObj := { type := some .stringT, key := true, index := true }

/-- Descriptor with a key property also marked as an index. -/
def keyIndexDesc : RawDesc := [(chars ("id"), .obj keyIndexProp)]

/-- A key property that declares a reference. -/
def keyRefProp : PropObj :=
  { type := some .stringT, key := true, ref := some (chars ("Other")) }

/-- Descriptor with a key property that declares a reference. -/
def keyRefDesc : RawDesc := [(chars ("id"), .obj keyRefProp)]

/-- A key property of object type. -/
def keyObjProp : PropObj := { type := some .objectT, key := true }

/-- Descriptor with a key property of object type. -/
def keyObjDesc : RawDesc := [(chars ("id"), .obj keyObjProp)]

/-- Assemble an index entry from its five fields. -/
def mkIndexEntry (path : IndexPath) (nm ity : Str) (comp : Bool)
    (rkc : Option RefKeyCase) : IndexEntry :=
  { path := path, name := nm, indexType := ity, compound := comp, refKeyCase := rkc }

/-- The compound property list of the claim. -/
def wCompoundProps : List Str := [chars ("email"), chars ("userName")]

/-- The compound index options of the claim. -/
def wCompoundOpts : IndexOptions := { indexName := some (chars ("EmailAndUserName")) }

/-- The schema produced by the compound `index` call of the claim on
the `user::` schema. -/
def wCompoundResult : Schema :=
  { wSchemaUser with indexes := (aset wSchemaUser.indexes (chars ("EmailAndUserName"))
      (mkIndexEntry (.multi wCompoundProps) (chars ("EmailAndUserName"))
        (chars ("single")) true none)) }

/-- Every descriptor entry is a fixed point of normalization — true of
every schema reachable through the public API, whose descriptor
entries all came out of `normalizeProperties` or `virtual`. -/
def WfT (t : Tbl RawProp) : Prop := ∀ pe ∈ t, normalizeProp pe.2 = pe.2

instance (t : Tbl RawProp) : Decidable (WfT t) := by
  unfold WfT
  infer_instance

/-- The well-formedness every API-reachable schema enjoys: a non-empty
document-key name, normalized descriptor entries, and non-empty
property names. -/
def GoodS (s : Schema) : Prop :=
  s.key.docKeyKey ≠ [] ∧ WfT s.descriptor ∧
    (∀ q ∈ s.descriptor.map Prod.fst, q ≠ ([] : Str))

instance (s : Schema) : Decidable (GoodS s) := by
  unfold GoodS
  infer_instance

/-- Receiver schema for the C5 witness: the `user::` schema with the
method `foo`. -/
def wExtA : Schema := { wSchemaUser with methods := [(chars ("foo"), .fnV 1)] }

/-- Donor schema for the C5 witness: the `user::` schema with a
different `foo` and an extra `bar`. -/
def wExtB : Schema :=
  { wSchemaUser with methods := [(chars ("foo"), .fnV 2), (chars ("bar"), .fnV 3)] }

theorem aget_aset_self {α : Type} (l : Tbl α) (k : Str) (v : α) :
    aget (aset l k v) k = some v := by
  induction l with
  | nil => simp [aset, aget]
  | cons h t ih =>
    by_cases hk : h.1 = k
    · simp [aset, aget, hk]
    · simp [aset, aget, hk, ih]

theorem aget_aset_ne {α : Type} (l : Tbl α) (k k' : Str) (v : α) (h : k' ≠ k) :
    aget (aset l k v) k' = aget l k' := by
  induction l with
  | nil =>
    have hne : ¬k = k' := fun hh => h hh.symm
    simp [aset, aget, hne]
  | cons hd t ih =>
    by_cases hk : hd.1 = k
    · have hne : ¬k = k' := fun hh => h hh.symm
      simp [aset, aget, hk, hne]
    · simp [aset, aget, hk, ih]

theorem isPrefixOf_append_self (P t : Str) : P.isPrefixOf (P ++ t) = true := by
  induction P with
  | nil => simp [List.isPrefixOf]
  | cons c cs ih => simp [List.isPrefixOf, ih]

theorem isSuffixOf_append_self (S t : Str) : S.isSuffixOf (t ++ S) = true := by
  have h := isPrefixOf_append_self S.reverse t.reverse
  simp [List.isSuffixOf, List.reverse_append, h]

theorem keyPatTest_expand (P S id : Str) (h : noLT id = true) :
    keyPatTest P S (P ++ id ++ S) = true := by
  have h1 : P.isPrefixOf (P ++ id ++ S) = true := by
    rw [List.append_assoc]
    exact isPrefixOf_append_self P (id ++ S)
  have h2 : (P ++ id ++ S).drop P.length = id ++ S := by
    rw [List.append_assoc]
    exact List.drop_left P (id ++ S)
  have h3 : (id ++ S).length - S.length = id.length := by
    simp [List.length_append]
  have h4 : (id ++ S).take id.length = id := List.take_left id S
  simp [keyPatTest, h1, h2, h3, h4, isSuffixOf_append_self, h]

theorem strip_expand (P S id : Str) :
    replaceTrailOnce S (replaceLeadOnce P (P ++ id ++ S)) = id := by
  have h1 : P.isPrefixOf (P ++ id ++ S) = true := by
    rw [List.append_assoc]
    exact isPrefixOf_append_self P (id ++ S)
  have h2 : (P ++ id ++ S).drop P.length = id ++ S := by
    rw [List.append_assoc]
    exact List.drop_left P (id ++ S)
  have h3 : (id ++ S).length - S.length = id.length := by
    simp [List.length_append]
  have h4 : (id ++ S).take id.length = id := List.take_left id S
  simp [replaceLeadOnce, replaceTrailOnce, h1, h2, h3, h4, isSuffixOf_append_self]

/-- C2 counterexample: the claim fails as universally stated.  For the
schema built from a `name`-only descriptor with key prefix `p`, the id
consisting of one newline expands to `p` + newline, which the anchored
pattern does not recognize (an unflagged `.` never matches a line
terminator), so the second expansion prepends `p` again:
double-expansion, not idempotence. -/
theorem getDocumentKeyValue_full_idem_cex :
    (match mkSchema demoDesc pfxOnlyOpts with
      | .ok s =>
        some (decide (s.getDocumentKeyValue
            (s.getDocumentKeyValue (.strA (chars ("\n"))) true) true
          = s.getDocumentKeyValue (.strA (chars ("\n"))) true))
      | .error _ => none) = some false := by decide

/-- C2 (amended): for every schema without a dynamic-key function and
every id containing no line-terminator character, expanding a document
key a second time with full true returns it unchanged. -/
theorem getDocumentKeyValue_full_idem (s : Schema) (hd : s.key.dynamicKey = none)
    (id : Str) (hnl : noLT id = true) :
    s.getDocumentKeyValue (s.getDocumentKeyValue (.strA id) true) true
      = s.getDocumentKeyValue (.strA id) true := by
  have hx := keyPatTest_expand (match s.key.pfx with | some p => p | none => [])
    (match s.key.sfx with | some q => q | none => []) id hnl
  rw [List.append_assoc] at hx
  cases h : keyPatTest (match s.key.pfx with | some p => p | none => [])
      (match s.key.sfx with | some q => q | none => []) id with
  | true => simp [Schema.getDocumentKeyValue, hd, h]
  | false => simp [Schema.getDocumentKeyValue, hd, h, hx]

/-- C2 witness: the idempotence theorem applied to the `user::`
prefixed schema at a plain identifier. -/
theorem getDocumentKeyValue_full_idem_witness :
    wSchemaUser.getDocumentKeyValue
        (wSchemaUser.getDocumentKeyValue (.strA (chars ("114477"))) true) true
      = wSchemaUser.getDocumentKeyValue (.strA (chars ("114477"))) true :=
  getDocumentKeyValue_full_idem wSchemaUser rfl (chars ("114477")) (by decide)

/-- C8 counterexample: the claim fails as universally stated.  With
key prefix `q`, the newline id expands to `q` + newline; stripping
that expansion leaves it untouched (the pattern does not match across
the newline), while stripping the original id gives the newline back:
the two sides differ. -/
theorem getDocumentKeyValue_roundtrip_cex :
    (match mkSchema demoDesc pfxOnlyOptsQ with
      | .ok s =>
        some (decide (s.getDocumentKeyValue
            (s.getDocumentKeyValue (.strA (chars ("\n"))) true) false
          = s.getDocumentKeyValue (.strA (chars ("\n"))) false))
      | .error _ => none) = some false := by decide

/-- C8 (amended): for every schema without a dynamic-key function and
every id containing no line-terminator character, stripping the full
expansion equals stripping the original id; and a non-string input is
returned unchanged by every call. -/
theorem getDocumentKeyValue_roundtrip (s : Schema) (hd : s.key.dynamicKey = none)
    (id : Str) (hnl : noLT id = true) :
    s.getDocumentKeyValue (s.getDocumentKeyValue (.strA id) true) false
        = s.getDocumentKeyValue (.strA id) false ∧
      (∀ (n : Nat) (full : Bool), s.getDocumentKeyValue (.otherA n) full = .otherA n) := by
  constructor
  · have hx := keyPatTest_expand (match s.key.pfx with | some p => p | none => [])
      (match s.key.sfx with | some q => q | none => []) id hnl
    have hs := strip_expand (match s.key.pfx with | some p => p | none => [])
      (match s.key.sfx with | some q => q | none => []) id
    rw [List.append_assoc] at hx
    rw [List.append_assoc] at hs
    cases h : keyPatTest (match s.key.pfx with | some p => p | none => [])
        (match s.key.sfx with | some q => q | none => []) id with
    | true => simp [Schema.getDocumentKeyValue, hd, h]
    | false => simp [Schema.getDocumentKeyValue, hd, h, hx, hs]
  · intro n full
    simp [Schema.getDocumentKeyValue]

/-- C8 witness: the round-trip theorem applied to the `user::`
prefixed schema at a plain identifier. -/
theorem getDocumentKeyValue_roundtrip_witness :
    wSchemaUser.getDocumentKeyValue
          (wSchemaUser.getDocumentKeyValue (.strA (chars ("8c90"))) true) false
        = wSchemaUser.getDocumentKeyValue (.strA (chars ("8c90"))) false ∧
      (∀ (n : Nat) (full : Bool),
        wSchemaUser.getDocumentKeyValue (.otherA n) full = .otherA n) :=
  getDocumentKeyValue_roundtrip wSchemaUser rfl (chars ("8c90")) (by decide)

theorem byteLen_append (a b : Str) : byteLen (a ++ b) = byteLen a + byteLen b := by
  simp [byteLen]

theorem hexDigitChar_utf8Size (m : Nat) : (hexDigitChar m).utf8Size = 1 := by
  unfold hexDigitChar
  rcases hm : (chars ("0123456789abcdef"))[m]? with _ | c
  · simp [List.getD, hm]
    decide
  · have hm' : (chars ("0123456789abcdef")).get? m = some c := by
      rw [List.get?_eq_getElem?, hm]
    have hc : c ∈ chars ("0123456789abcdef") := List.get?_mem hm'
    have hall : ∀ x ∈ chars ("0123456789abcdef"), x.utf8Size = 1 := by decide
    simp [List.getD, hm, hall c hc]

theorem hexChars_byteLen (k n : Nat) : byteLen (hexChars k n) = k := by
  induction k generalizing n with
  | zero => simp [hexChars, byteLen]
  | succ k ih =>
    show byteLen (hexChars k (n / 16) ++ [hexDigitChar (n % 16)]) = k + 1
    rw [byteLen_append, ih]
    simp [byteLen, hexDigitChar_utf8Size]

theorem md5hex_byteLen (v : Str) : byteLen (md5hex v) = 32 := hexChars_byteLen 32 _

theorem getRefKey_eq (s : Schema) (name v : Str) :
    s.getRefKey name v =
      (if byteLen (refFullPfx s name ++ refKeyCaseApply s name v) > MAX_REF_KEY_LENGTH
        then refFullPfx s name ++ (chars ("hashed_") ++ md5hex (refKeyCaseApply s name v))
        else refFullPfx s name ++ refKeyCaseApply s name v) := rfl

set_option maxRecDepth 8000 in
/-- C1 counterexample: the claim fails as stated.  For the schema
built with key prefix `user::` and delimiter `::`, index name `email`
and a 300-character value, the concatenation exceeds 250 UTF-8 bytes
(first component true), yet the returned key starts with the full
prefix `user::email::`, not with `hashed_` (second component false):
only the value part carries the tag. -/
theorem getRefKey_hashed_cex :
    (match mkSchema demoDesc refOpts with
      | .ok s =>
        some
          (decide (byteLen (jsOr s.options.keyPfx [] ++
              jsOr s.options.refIndexKeyPfx [] ++ chars ("email") ++
              jsStr s.options.delimiter ++ List.replicate 300 'a') > MAX_REF_KEY_LENGTH),
            (chars ("hashed_")).isPrefixOf
              (s.getRefKey (chars ("email")) (List.replicate 300 'a')))
      | .error _ => none) = some (true, false) := by decide

/-- C1 (amended): for a schema with no dynamic-key function and no
`refKeyCase` folding applying to the value, when the UTF-8 byte length
of key prefix + reference-index prefix + name + delimiter + value
exceeds 250 the returned key is that full prefix followed by
`hashed_` and the fixed 32-character hex digest of the value — so it
differs from the plain concatenation whenever the value's byte length
is not 39 — and when the length does not exceed 250 the plain
concatenation is returned. -/
theorem getRefKey_spec (s : Schema) (name v : Str)
    (_hd : s.options.dynamicKey = none)
    (hc : refKeyCaseApply s name v = v) :
    (byteLen (refFullPfx s name ++ v) > MAX_REF_KEY_LENGTH →
      s.getRefKey name v = refFullPfx s name ++ (chars ("hashed_") ++ md5hex v) ∧
        (byteLen v ≠ 39 → s.getRefKey name v ≠ refFullPfx s name ++ v)) ∧
      (byteLen (refFullPfx s name ++ v) ≤ MAX_REF_KEY_LENGTH →
        s.getRefKey name v = refFullPfx s name ++ v) := by
  have he := getRefKey_eq s name v
  rw [hc] at he
  constructor
  · intro hgt
    rw [he, if_pos hgt]
    refine ⟨rfl, ?_⟩
    intro h39 heq
    have hv : chars ("hashed_") ++ md5hex v = v := List.append_cancel_left heq
    have hbl : byteLen (chars ("hashed_") ++ md5hex v) = byteLen v := by rw [hv]
    rw [byteLen_append, md5hex_byteLen] at hbl
    have h7 : byteLen (chars ("hashed_")) = 7 := by decide
    omega
  · intro hle
    rw [he, if_neg (by omega)]

/-- C1 witness: the amended theorem applied to the `user::` schema
with index name `email` and the short value `joe`, giving the plain
concatenation. -/
theorem getRefKey_spec_witness :
    wSchemaUser.getRefKey (chars ("email")) (chars ("joe"))
      = refFullPfx wSchemaUser (chars ("email")) ++ chars ("joe") :=
  (getRefKey_spec wSchemaUser (chars ("email")) (chars ("joe")) rfl rfl).2 (by decide)

theorem aget_cons_pos {α : Type} (k0 : Str) (v0 : α) (t : Tbl α) (k : Str) (h : k0 = k) :
    aget ((k0, v0) :: t) k = some v0 := by simp [aget, h]

theorem aget_cons_neg {α : Type} (k0 : Str) (v0 : α) (t : Tbl α) (k : Str) (h : ¬k0 = k) :
    aget ((k0, v0) :: t) k = aget t k := by simp [aget, h]

theorem aset_cons_pos {α : Type} (k0 : Str) (v0 : α) (t : Tbl α) (k : Str) (v : α)
    (h : k0 = k) : aset ((k0, v0) :: t) k v = (k0, v) :: t := by simp [aset, h]

theorem aset_cons_neg {α : Type} (k0 : Str) (v0 : α) (t : Tbl α) (k : Str) (v : α)
    (h : ¬k0 = k) : aset ((k0, v0) :: t) k v = (k0, v0) :: aset t k v := by simp [aset, h]

theorem aget_mem_keys {α : Type} (l : Tbl α) (p : Str) (v : α) (h : aget l p = some v) :
    p ∈ l.map Prod.fst := by
  induction l with
  | nil => simp [aget] at h
  | cons hd t ih =>
    obtain ⟨k0, v0⟩ := hd
    by_cases hk : k0 = p
    · rw [List.map_cons, hk]
      exact List.mem_cons_self p _
    · rw [aget_cons_neg k0 v0 t p hk] at h
      rw [List.map_cons]
      exact List.mem_cons_of_mem _ (ih h)

theorem mem_keys_aset {α : Type} (l : Tbl α) (k : Str) (v : α) (q : Str)
    (hq : q ∈ (aset l k v).map Prod.fst) : q ∈ l.map Prod.fst ∨ q = k := by
  induction l with
  | nil =>
    rw [show aset ([] : Tbl α) k v = [(k, v)] from rfl] at hq
    rw [List.map_cons] at hq
    rcases List.mem_cons.mp hq with h1 | h1
    · exact Or.inr h1
    · simp at h1
  | cons hd t ih =>
    obtain ⟨k0, v0⟩ := hd
    by_cases hk : k0 = k
    · rw [aset_cons_pos k0 v0 t k v hk] at hq
      rw [List.map_cons] at hq ⊢
      exact Or.inl hq
    · rw [aset_cons_neg k0 v0 t k v hk] at hq
      rw [List.map_cons] at hq ⊢
      rcases List.mem_cons.mp hq with h1 | h1
      · exact Or.inl (List.mem_cons.mpr (Or.inl h1))
      · rcases ih h1 with h2 | h2
        · exact Or.inl (List.mem_cons.mpr (Or.inr h2))
        · exact Or.inr h2

theorem aget_foldl_not_mem (g : RawProp → RawProp) (d : RawDesc) (init : Tbl RawProp)
    (p : Str) (hp : p ∉ d.map Prod.fst) :
    aget (d.foldl (fun acc pe => aset acc pe.1 (g pe.2)) init) p = aget init p := by
  induction d generalizing init with
  | nil => rfl
  | cons pe rest ih =>
    have hp1 : p ≠ pe.1 := by
      intro h
      exact hp (by rw [List.map_cons, h]; exact List.mem_cons_self _ _)
    have hp2 : p ∉ rest.map Prod.fst := by
      intro h
      exact hp (by rw [List.map_cons]; exact List.mem_cons_of_mem _ h)
    rw [List.foldl_cons, ih _ hp2]
    exact aget_aset_ne init pe.1 p (g pe.2) hp1

theorem aget_foldl_of_mem_nodup (g : RawProp → RawProp) (d : RawDesc) (init : Tbl RawProp)
    (p : Str) (rp : RawProp) (hmem : (p, rp) ∈ d) (hnd : (d.map Prod.fst).Nodup) :
    aget (d.foldl (fun acc pe => aset acc pe.1 (g pe.2)) init) p = some (g rp) := by
  induction d generalizing init with
  | nil => simp at hmem
  | cons pe rest ih =>
    have hnd2 : pe.1 ∉ rest.map Prod.fst ∧ (rest.map Prod.fst).Nodup := by
      rw [List.map_cons] at hnd
      exact List.nodup_cons.mp hnd
    rw [List.foldl_cons]
    rcases List.mem_cons.mp hmem with h1 | h1
    · have hpe : pe.1 = p := by rw [← h1]
      have hkeys : p ∉ rest.map Prod.fst := hpe ▸ hnd2.1
      rw [aget_foldl_not_mem g rest _ p hkeys, ← h1]
      exact aget_aset_self init p (g rp)
    · exact ih _ h1 hnd2.2

theorem applyKeyProp_docKey (s : Schema) (prop : Str) (o : PropObj) :
    (applyKeyProp s prop o).key.docKeyKey = prop := rfl

theorem applyDKLoop_docKey (L : List Str) (s : Schema) (f : Bool) (s1 : Schema) (f1 : Bool)
    (h : applyDKLoop s f L = .ok (s1, f1)) :
    (s1.key.docKeyKey = s.key.docKeyKey ∧ f1 = f) ∨ s1.key.docKeyKey ∈ L := by
  induction L generalizing s f with
  | nil =>
    simp only [applyDKLoop] at h
    simp at h
    exact Or.inl ⟨by rw [h.1], by rw [h.2]⟩
  | cons prop rest ih =>
    simp only [applyDKLoop] at h
    rcases hga : aget s.descriptor prop with _ | rp
    · rw [hga] at h
      rcases ih _ _ h with h1 | h1
      · exact Or.inl h1
      · exact Or.inr (List.mem_cons_of_mem _ h1)
    · rw [hga] at h
      match rp with
      | .shorthand t =>
        rcases ih _ _ h with h1 | h1
        · exact Or.inl h1
        · exact Or.inr (List.mem_cons_of_mem _ h1)
      | .virt v =>
        rcases ih _ _ h with h1 | h1
        · exact Or.inl h1
        · exact Or.inr (List.mem_cons_of_mem _ h1)
      | .obj o =>
        dsimp only at h
        split_ifs at h with hk hi hr ht
        · rcases ih _ _ h with h1 | h1
          · rw [applyKeyProp_docKey] at h1
            exact Or.inr (by rw [h1.1]; exact List.mem_cons_self _ _)
          · exact Or.inr (List.mem_cons_of_mem _ h1)
        · rcases ih _ _ h with h1 | h1
          · exact Or.inl h1
          · exact Or.inr (List.mem_cons_of_mem _ h1)

theorem mem_keys_foldl (g : RawProp → RawProp) (d : RawDesc) (init : Tbl RawProp) (q : Str)
    (hq : q ∈ (d.foldl (fun acc pe => aset acc pe.1 (g pe.2)) init).map Prod.fst) :
    q ∈ init.map Prod.fst ∨ q ∈ d.map Prod.fst := by
  induction d generalizing init with
  | nil => exact Or.inl hq
  | cons pe rest ih =>
    rw [List.foldl_cons] at hq
    rcases ih _ hq with h1 | h1
    · rcases mem_keys_aset init pe.1 (g pe.2) q h1 with h2 | h2
      · exact Or.inl h2
      · exact Or.inr (by rw [List.map_cons, h2]; exact List.mem_cons_self _ _)
    · exact Or.inr (by rw [List.map_cons]; exact List.mem_cons_of_mem _ h1)

theorem applyDocumentKey_nonempty (s s1 : Schema)
    (hne : ∀ q ∈ s.descriptor.map Prod.fst, q ≠ ([] : Str))
    (h : applyDocumentKey s = .ok s1) :
    s1.key.docKeyKey ≠ [] := by
  unfold applyDocumentKey at h
  cases hl : applyDKLoop s false (s.descriptor.map Prod.fst) with
  | error e =>
    rw [hl] at h
    exact Except.noConfusion h
  | ok pr =>
    obtain ⟨s2, f2⟩ := pr
    rw [hl] at h
    rw [show (Except.ok (s2, f2) : Except JsErr (Schema × Bool)) = pure (s2, f2) from rfl,
      pure_bind] at h
    dsimp only at h
    split_ifs at h with hsy
    · have hs1 : s1.key.docKeyKey = chars ("id") := by
        have := (Except.ok.injEq _ _).mp h.symm
        rw [this]
      rw [hs1]
      decide
    · have hs1 : s1 = s2 := ((Except.ok.injEq _ _).mp h).symm
      rcases applyDKLoop_docKey _ _ _ _ _ hl with h1 | h1
      · intro hnil
        rw [hs1] at hnil
        exact hsy ⟨h1.2, hnil⟩
      · rw [hs1]
        exact hne _ h1

theorem constructorKeyFallbacks_docKey (s : Schema) :
    (constructorKeyFallbacks s).key.docKeyKey = s.key.docKeyKey := by
  unfold constructorKeyFallbacks
  dsimp only
  split_ifs <;> (try split) <;> rfl

/-- C3 counterexample: the claim fails as universally stated.  A
property may be named by the empty string in JavaScript; a descriptor
whose only (empty-named) property is marked `key: true` is accepted,
and `_applyDocumentKey` records the empty name as `docKeyKey` without
synthesizing `id`, so `key.docKeyKey` is empty after construction. -/
theorem schema_docKey_nonempty_cex :
    (match mkSchema [(([] : Str), RawProp.obj { type := some .stringT, key := true })] {} with
      | .ok s => some (decide (s.key.docKeyKey = []))
      | .error _ => none) = some true := by decide

theorem addObj_docKey_nonempty (s : Schema) (d : RawDesc) (s1 : Schema)
    (hneS : ∀ q ∈ s.descriptor.map Prod.fst, q ≠ ([] : Str))
    (hneD : ∀ q ∈ d.map Prod.fst, q ≠ ([] : Str))
    (h : s.addObj d = .ok s1) : s1.key.docKeyKey ≠ [] := by
  unfold Schema.addObj at h
  apply applyDocumentKey_nonempty _ _ _ h
  intro q hq
  rcases mem_keys_foldl normalizeProp d s.descriptor q hq with h1 | h1
  · exact hneS q h1
  · exact hneD q h1

theorem add_docKey_nonempty (s : Schema) (k : Str) (rp : RawProp) (s1 : Schema)
    (hneS : ∀ q ∈ s.descriptor.map Prod.fst, q ≠ ([] : Str))
    (h : s.add k rp = .ok s1) : s1.key.docKeyKey ≠ [] := by
  unfold Schema.add at h
  split_ifs at h with hke
  · exact applyDocumentKey_nonempty _ _ hneS h
  · apply applyDocumentKey_nonempty _ _ _ h
    intro q hq
    rcases mem_keys_aset s.descriptor k (normalizeProp rp) q hq with h1 | h1
    · exact hneS q h1
    · rw [h1]
      exact hke

/-- C3 (amended): after construction, and after every call to either
`add` form, on descriptors whose property names are non-empty,
`key.docKeyKey` is non-empty (the single document-key name); and the
schema built from a bare `name: String` descriptor synthesizes the
string-typed `id` key with generation enabled, `id` being the only
property added beyond `name`. -/
theorem schema_docKey_invariant :
    (∀ (d : RawDesc) (opts : SchemaOptions) (s : Schema),
        (∀ q ∈ d.map Prod.fst, q ≠ ([] : Str)) →
        mkSchema d opts = .ok s → s.key.docKeyKey ≠ []) ∧
      (∀ (s : Schema) (d : RawDesc) (s1 : Schema),
        (∀ q ∈ s.descriptor.map Prod.fst, q ≠ ([] : Str)) →
        (∀ q ∈ d.map Prod.fst, q ≠ ([] : Str)) →
        s.addObj d = .ok s1 → s1.key.docKeyKey ≠ []) ∧
      (∀ (s : Schema) (k : Str) (rp : RawProp) (s1 : Schema),
        (∀ q ∈ s.descriptor.map Prod.fst, q ≠ ([] : Str)) →
        s.add k rp = .ok s1 → s1.key.docKeyKey ≠ []) ∧
      (match mkSchema demoDesc {} with
        | .ok s =>
          some (s.key.docKeyKey, s.key.generate, aget s.descriptor (chars ("id")),
            s.descriptor.map Prod.fst)
        | .error _ => none)
        = some (chars ("id"), true, some (.obj { type := some .stringT }),
            [chars ("name"), chars ("id")]) := by
  refine ⟨?_, addObj_docKey_nonempty, add_docKey_nonempty, by decide⟩
  intro d opts s hne hm
  unfold mkSchema at hm
  cases ha : Schema.addObj { options := opts } d with
  | error e =>
    rw [ha] at hm
    exact Except.noConfusion hm
  | ok s1 =>
    rw [ha, show (Except.ok s1 : Except JsErr Schema) = pure s1 from rfl, pure_bind] at hm
    have hs : s = constructorKeyFallbacks s1 := ((Except.ok.injEq _ _).mp hm).symm
    rw [hs, constructorKeyFallbacks_docKey]
    refine addObj_docKey_nonempty _ _ _ ?_ hne ha
    intro q hq
    simp at hq

/-- C3 witness: the construction part of the invariant applied to the
`name`-only descriptor with a key prefix. -/
theorem schema_docKey_invariant_witness :
    (match mkSchema demoDesc pfxOnlyOpts with
      | .ok s => s.key.docKeyKey ≠ []
      | .error _ => False) := by
  have h := schema_docKey_invariant.1 demoDesc pfxOnlyOpts
  cases hm : mkSchema demoDesc pfxOnlyOpts with
  | ok s => exact h s (by decide) hm
  | error e =>
    have hd : isOkB (mkSchema demoDesc pfxOnlyOpts) = true := by decide
    rw [hm] at hd
    exact Bool.noConfusion hd

theorem applyDKLoop_error (L : List Str) :
    ∀ (s : Schema) (f : Bool) (p : Str) (o : PropObj), p ∈ L →
      aget s.descriptor p = some (.obj o) → o.key = true →
      (o.index = true ∨ o.ref.isSome = true ∨ badKeyType o.type = true) →
      ∃ e, applyDKLoop s f L = .error e := by
  induction L with
  | nil =>
    intro s f p o hp
    cases hp
  | cons prop rest ih =>
    intro s f p o hp hget hk hbad
    rcases hv : applyDKLoop s f (prop :: rest) with e | pr
    · exact ⟨e, rfl⟩
    · exfalso
      by_cases hpp : prop = p
      · subst hpp
        simp only [applyDKLoop, hget] at hv
        cases hbi : o.index with
        | true => simp [hk, hbi] at hv
        | false =>
          cases hbr : o.ref.isSome with
          | true => simp [hk, hbi, hbr] at hv
          | false =>
            have hbt : badKeyType o.type = true := by
              rcases hbad with hb | hb | hb
              · rw [hbi] at hb
                exact Bool.noConfusion hb
              · rw [hbr] at hb
                exact Bool.noConfusion hb
              · exact hb
            simp [hk, hbi, hbr, hbt] at hv
      · have hrest : p ∈ rest := by
          rcases List.mem_cons.mp hp with h1 | h1
          · exact absurd h1.symm hpp
          · exact h1
        simp only [applyDKLoop] at hv
        rcases hga : aget s.descriptor prop with _ | rp
        · rw [hga] at hv
          rcases ih s f p o hrest hget hk hbad with ⟨e, he⟩
          rw [he] at hv
          exact Except.noConfusion hv
        · rw [hga] at hv
          match rp with
          | .shorthand t =>
            rcases ih s f p o hrest hget hk hbad with ⟨e, he⟩
            rw [he] at hv
            exact Except.noConfusion hv
          | .virt v =>
            rcases ih s f p o hrest hget hk hbad with ⟨e, he⟩
            rw [he] at hv
            exact Except.noConfusion hv
          | .obj o2 =>
            dsimp only at hv
            split_ifs at hv with h1 h2 h3 h4
            · have hget2 : aget (applyKeyProp s prop o2).descriptor p = some (.obj o) := by
                have : (applyKeyProp s prop o2).descriptor
                    = aset s.descriptor prop (normalizeProp (.obj o2)) := rfl
                rw [this]
                rw [aget_aset_ne s.descriptor prop p _ (fun h => hpp h.symm)]
                exact hget
              rcases ih _ true p o hrest hget2 hk hbad with ⟨e, he⟩
              rw [he] at hv
              exact Except.noConfusion hv
            · rcases ih s f p o hrest hget hk hbad with ⟨e, he⟩
              rw [he] at hv
              exact Except.noConfusion hv

theorem addObjPre_descriptor (s : Schema) (d : RawDesc) :
    (addObjPre s d).descriptor
      = d.foldl (fun acc pe => aset acc pe.1 (normalizeProp pe.2)) s.descriptor := rfl

theorem applyDocumentKey_error_of_loop (s : Schema) (e : JsErr)
    (he : applyDKLoop s false (s.descriptor.map Prod.fst) = .error e) :
    applyDocumentKey s = .error e := by
  unfold applyDocumentKey
  rw [he]
  rfl

theorem mkSchema_error_of_addObj (d : RawDesc) (opts : SchemaOptions) (e : JsErr)
    (h : Schema.addObj { options := opts } d = .error e) :
    mkSchema d opts = .error e := by
  unfold mkSchema
  rw [h]
  rfl

/-- C4 (confirmed): constructing a schema over a descriptor holding a
property marked `key: true` that is also an index, or declares a
reference, or declares a type that is neither string- nor number-like,
throws a `TypeError` during construction (the property names of a
JavaScript object literal are necessarily distinct, hence the
no-duplicate hypothesis). -/
theorem key_conflict_rejected (d : RawDesc) (opts : SchemaOptions) (p : Str) (o : PropObj)
    (hp : (p, RawProp.obj o) ∈ d) (hnd : (d.map Prod.fst).Nodup) (hk : o.key = true)
    (hbad : o.index = true ∨ o.ref.isSome = true ∨ badKeyType o.type = true) :
    ∃ e, mkSchema d opts = .error e := by
  have hget : aget (addObjPre { options := opts } d).descriptor p
      = some (normalizeProp (.obj o)) := by
    rw [addObjPre_descriptor]
    exact aget_foldl_of_mem_nodup normalizeProp d _ p _ hp hnd
  have hnorm : normalizeProp (.obj o)
      = RawProp.obj { o with type := some (o.type.getD .anyT) } := rfl
  rw [hnorm] at hget
  have hbad' : ({ o with type := some (o.type.getD .anyT) } : PropObj).index = true ∨
      ({ o with type := some (o.type.getD .anyT) } : PropObj).ref.isSome = true ∨
      badKeyType ({ o with type := some (o.type.getD .anyT) } : PropObj).type = true := by
    rcases hbad with hb | hb | hb
    · exact Or.inl hb
    · exact Or.inr (Or.inl hb)
    · refine Or.inr (Or.inr ?_)
      cases ht : o.type with
      | none =>
        rw [ht] at hb
        simp [badKeyType] at hb
      | some t =>
        rw [ht] at hb
        simpa [badKeyType] using hb
  have hmem : p ∈ (addObjPre { options := opts } d).descriptor.map Prod.fst :=
    aget_mem_keys _ p _ hget
  rcases applyDKLoop_error _ (addObjPre { options := opts } d) false p _ hmem hget hk hbad'
    with ⟨e, he⟩
  exact ⟨e, mkSchema_error_of_addObj d opts e (applyDocumentKey_error_of_loop _ e he)⟩

/-- C4 witness: the rejection theorem applied to the three concrete
descriptors of the claim: key and index, key and ref, key of object
type. -/
theorem key_conflict_rejected_witness :
    (∃ e, mkSchema keyIndexDesc {} = .error e) ∧
      (∃ e, mkSchema keyRefDesc {} = .error e) ∧
      (∃ e, mkSchema keyObjDesc {} = .error e) :=
  ⟨key_conflict_rejected keyIndexDesc {} (chars ("id")) keyIndexProp
      (by decide) (by decide) rfl (Or.inl rfl),
    key_conflict_rejected keyRefDesc {} (chars ("id")) keyRefProp
      (by decide) (by decide) rfl (Or.inr (Or.inl rfl)),
    key_conflict_rejected keyObjDesc {} (chars ("id")) keyObjProp
      (by decide) (by decide) rfl (Or.inr (Or.inr rfl))⟩

/-- C6 counterexample: the claim fails as stated.  `index` on the
property name `item2` does not drop the trailing digit (the source's
`trailingDigitReg` is the anchored all-digits pattern, and no
singularization rule touches a token ending in a digit), so nothing is
registered under `item` — the entry lands under `item2`. -/
theorem index_single_name_cex :
    (match mkSchema demoDesc {} with
      | .ok s =>
        match s.index (.single (chars ("item2"))) {} with
        | .ok s1 =>
          some (aget s1.indexes (chars ("item")), (aget s1.indexes (chars ("item2"))).isSome)
        | .error _ => none
      | .error _ => none) = some (none, true) := by decide

/-- C6 (amended): for a single property name and no truthy explicit
indexName, the index is registered as follows.  A name that is not
made entirely of digits is kept whole (no digit stripping) and the
index is registered under its English singular form — in particular
`index(users)` registers under `user`.  A name made entirely of digits
is first replaced by its second-to-last character and the index is
registered under the singular form of that character; when the name is
shorter than two characters that index read is `undefined` and the
call throws. -/
theorem index_single_name :
    (∀ (s : Schema) (p : Str) (opts : IndexOptions),
        (opts.indexName = none ∨ opts.indexName = some []) → isAllDigits p = false →
        s.index (.single p) opts
          = .ok { s with indexes := (aset s.indexes (singularize p)
              (mkIndexEntry (.single p) (singularize p)
                (jsOr opts.indexType (chars ("single"))) false opts.refKeyCase)) }) ∧
      (∀ (s : Schema) (p : Str) (opts : IndexOptions) (c : Str),
        (opts.indexName = none ∨ opts.indexName = some []) → isAllDigits p = true →
        jsCharAt p ((p.length : Int) - 2) = some c →
        s.index (.single p) opts
          = .ok { s with indexes := (aset s.indexes (singularize c)
              (mkIndexEntry (.single p) (singularize c)
                (jsOr opts.indexType (chars ("single"))) false opts.refKeyCase)) }) ∧
      (∀ (s : Schema) (p : Str) (opts : IndexOptions),
        (opts.indexName = none ∨ opts.indexName = some []) → isAllDigits p = true →
        jsCharAt p ((p.length : Int) - 2) = none →
        ∃ e, s.index (.single p) opts = .error e) := by
  refine ⟨?_, ?_, ?_⟩
  · intro s p opts hn h
    rcases hn with hn | hn <;>
      simp [Schema.index, inferSingleIndexName, h, hn, mkIndexEntry]
  · intro s p opts c hn h hc
    rcases hn with hn | hn <;>
      simp [Schema.index, inferSingleIndexName, h, hn, hc, mkIndexEntry]
  · intro s p opts hn h hc
    rcases hn with hn | hn <;>
      (refine ⟨.typeError "inflection.singularize expects a string", ?_⟩ ;
        simp [Schema.index, inferSingleIndexName, h, hn, hc])

/-- C6 witness: the naming theorem applied to the `user::` schema on
each branch — `users` registers under `user`; the all-digits name `12`
registers under its second-to-last character `1`; the one-character
all-digits name `5` throws. -/
theorem index_single_name_witness :
    wSchemaUser.index (.single (chars ("users"))) {}
        = .ok { wSchemaUser with indexes := (aset wSchemaUser.indexes (chars ("user"))
            (mkIndexEntry (.single (chars ("users"))) (chars ("user"))
              (chars ("single")) false none)) } ∧
      wSchemaUser.index (.single (chars ("12"))) {}
        = .ok { wSchemaUser with indexes := (aset wSchemaUser.indexes (chars ("1"))
            (mkIndexEntry (.single (chars ("12"))) (chars ("1"))
              (chars ("single")) false none)) } ∧
      (∃ e, wSchemaUser.index (.single (chars ("5"))) {} = .error e) := by
  refine ⟨?_, ?_, ?_⟩
  · have h := index_single_name.1 wSchemaUser (chars ("users")) {} (Or.inl rfl) (by decide)
    have hs : singularize (chars ("users")) = chars ("user") := by decide
    rw [hs] at h
    exact h
  · have h := index_single_name.2.1 wSchemaUser (chars ("12")) {} (chars ("1"))
      (Or.inl rfl) (by decide) (by decide)
    have hs : singularize (chars ("1")) = chars ("1") := by decide
    rw [hs] at h
    exact h
  · exact index_single_name.2.2 wSchemaUser (chars ("5")) {} (Or.inl rfl) (by decide)
      (by decide)

/-- C7 (confirmed): every compound `index` call that returns stores
exactly one entry, under the explicit name when a truthy one is given,
with `compound: true` and the path exactly the given property
sequence in declaration order. -/
theorem index_compound_spec (s : Schema) (props : List Str) (opts : IndexOptions)
    (s1 : Schema) (h : s.index (.multi props) opts = .ok s1) :
    ∃ nm, s1.indexes = aset s.indexes nm
        (mkIndexEntry (.multi props) nm (jsOr opts.indexType (chars ("single"))) true
          opts.refKeyCase) ∧
      (∀ n, opts.indexName = some n → n ≠ [] → nm = n) := by
  unfold Schema.index at h
  dsimp only at h
  rcases hna : opts.indexName with _ | n
  · rw [hna] at h
    dsimp only at h
    rcases hm : props.mapM inferCompoundComponent with e | comps
    · rw [hm] at h
      exact Except.noConfusion h
    · rw [hm] at h
      dsimp only at h
      refine ⟨getIndexName comps, ?_, ?_⟩
      · have hs1 := (Except.ok.injEq _ _).mp h
        rw [← hs1]
        rfl
      · intro n hn
        exact Option.noConfusion hn
  · rw [hna] at h
    dsimp only at h
    by_cases hne : n = []
    · rw [if_pos hne] at h
      dsimp only at h
      rcases hm : props.mapM inferCompoundComponent with e | comps
      · rw [hm] at h
        exact Except.noConfusion h
      · rw [hm] at h
        dsimp only at h
        refine ⟨getIndexName comps, ?_, ?_⟩
        · have hs1 := (Except.ok.injEq _ _).mp h
          rw [← hs1]
          rfl
        · intro n2 hn2 hn2e
          have he : n = n2 := Option.some.inj hn2
          exact absurd (he ▸ hne) hn2e
    · rw [if_neg hne] at h
      dsimp only at h
      refine ⟨n, ?_, ?_⟩
      · have hs1 := (Except.ok.injEq _ _).mp h
        rw [← hs1]
        rfl
      · intro n2 hn2 _
        exact Option.some.inj hn2

/-- C7 witness: the compound theorem applied to the claim's call; the
schema's index table was empty, so exactly the one entry is stored,
under `EmailAndUserName`, with the declaration order preserved. -/
theorem index_compound_spec_witness :
    (∃ nm, wCompoundResult.indexes = aset wSchemaUser.indexes nm
        (mkIndexEntry (.multi wCompoundProps) nm
          (jsOr wCompoundOpts.indexType (chars ("single"))) true
          wCompoundOpts.refKeyCase) ∧
      (∀ n, wCompoundOpts.indexName = some n → n ≠ [] → nm = n)) ∧
      wSchemaUser.indexes = [] ∧ wCompoundResult.indexes.length = 1 :=
  ⟨index_compound_spec wSchemaUser wCompoundProps wCompoundOpts wCompoundResult rfl,
    rfl, by decide⟩

/-- C9 counterexample: the claim fails as stated.  `static` with a
string name accepts a non-function handler (the source stores static
values such as numbers), and the two-argument `virtual` form taking
the options object in the type slot skips the getter check: both calls
return without throwing. -/
theorem invalid_arg_cex :
    (match mkSchema demoDesc {} with
      | .ok s =>
        some (isOkB (s.static (.strN (chars ("foo"))) (.numV 42)),
          isOkB (s.virtual (.strV (chars ("v"))) (.optsV {}) .undefV))
      | .error _ => none) = some (true, true) := by decide

/-- C9 (amended): `method` throws a `TypeError` on a non-string
(non-map) name or a non-function handler; `static` throws only on a
non-string name and stores any handler value; `virtual` throws on a
non-string name, and with the options passed in the third slot throws
on a non-object options or an options without a getter function, but
the two-argument form (plain object in the type slot, falsy third
argument) skips the getter check.  Errors are thrown before any table
is written, so the schema is unchanged in every error case. -/
theorem invalid_arg_spec :
    (∀ (s : Schema) (v f : JsVal), v.isStr = false →
        s.method (.otherN v) f
          = .error (.typeError "Schema#method expects a string identifier as a function name")) ∧
      (∀ (s : Schema) (n : Str) (f : JsVal), f.isFn = false →
        s.method (.strN n) f
          = .error (.typeError "Schema#method expects a function as a handle")) ∧
      (∀ (s : Schema) (v f : JsVal), v.isStr = false →
        s.static (.otherN v) f
          = .error (.typeError "Schema#statics expects a string identifier as a function name")) ∧
      (∀ (s : Schema) (n : Str) (f : JsVal),
        s.static (.strN n) f = .ok { s with statics := aset s.statics n f }) ∧
      (∀ (s : Schema) (v : JsVal) (t : VArg2) (o3 : VArg3), v.isStr = false →
        s.virtual v t o3
          = .error (.typeError "Schema#virtual expects a string identifier as a property name")) ∧
      (∀ (s : Schema) (n : Str) (t : VArg2) (o3 : VArg3),
        (∀ o, t ≠ .optsV o) → (∀ o, o3 ≠ .optsV o) →
        s.virtual (.strV n) t o3
          = .error (.typeError "Schema#virtual expects an object as a handle")) ∧
      (∀ (s : Schema) (n : Str) (t : VArg2) (o3 : VirtOptions), o3.get.isFn = false →
        s.virtual (.strV n) t (.optsV o3)
          = .error (.typeError "Schema#virtual expects an object with a get function")) ∧
      (∀ (s : Schema) (n : Str) (o : VirtOptions),
        s.virtual (.strV n) (.optsV o) .undefV = .ok (buildVirtual s n .anyStr o)) := by
  refine ⟨?_, ?_, ?_, ?_, ?_, ?_, ?_, ?_⟩
  · intro s v f hv
    cases v <;> first | rfl | simp [JsVal.isStr] at hv
  · intro s n f hf
    simp [Schema.method, methodOne, JsVal.isStr, hf]
  · intro s v f hv
    cases v <;> first | rfl | simp [JsVal.isStr] at hv
  · intro s n f
    rfl
  · intro s v t o3 hv
    cases v <;> first | rfl | simp [JsVal.isStr] at hv
  · intro s n t o3 ht ho3
    cases t with
    | optsV o => exact absurd rfl (ht o)
    | typeV t0 => cases o3 with
      | optsV o => exact absurd rfl (ho3 o)
      | undefV => rfl
      | otherV x => rfl
    | undefV => cases o3 with
      | optsV o => exact absurd rfl (ho3 o)
      | undefV => rfl
      | otherV x => rfl
    | otherV v0 => cases o3 with
      | optsV o => exact absurd rfl (ho3 o)
      | undefV => rfl
      | otherV x => rfl
  · intro s n t o3 hget
    cases t <;> simp [Schema.virtual, VArg3.falsy, hget]
  · intro s n o
    rfl

/-- C9 witness: the invalid-argument theorem applied at a numeric
method name, a numeric method handler, and a three-argument `virtual`
call whose options lack a getter. -/
theorem invalid_arg_spec_witness :
    wSchemaUser.method (.otherN (.numV 5)) (.fnV 1)
        = .error (.typeError "Schema#method expects a string identifier as a function name") ∧
      wSchemaUser.method (.strN (chars ("m"))) (.numV 3)
        = .error (.typeError "Schema#method expects a function as a handle") ∧
      wSchemaUser.virtual (.strV (chars ("v"))) (.typeV .stringT) (.optsV {})
        = .error (.typeError "Schema#virtual expects an object with a get function") :=
  ⟨invalid_arg_spec.1 wSchemaUser (.numV 5) (.fnV 1) rfl,
    invalid_arg_spec.2.1 wSchemaUser (chars ("m")) (.numV 3) rfl,
    invalid_arg_spec.2.2.2.2.2.2.1 wSchemaUser (chars ("v")) (.typeV .stringT) {} rfl⟩

/-- C10 (confirmed): extending by anything that is not a `Schema`
value (`null`, `undefined`, a plain object) is a complete no-op: the
receiver itself is returned with every field untouched. -/
theorem extend_non_schema_noop (s : Schema) (v : JsVal) :
    s.extend (.otherA v) = .ok s := rfl

theorem aget_mem_pair {α : Type} (l : Tbl α) (n : Str) (v : α) (h : aget l n = some v) :
    (n, v) ∈ l := by
  induction l with
  | nil => simp [aget] at h
  | cons hd t ih =>
    obtain ⟨k0, v0⟩ := hd
    by_cases hk : k0 = n
    · rw [aget_cons_pos k0 v0 t n hk] at h
      have : v0 = v := Option.some.inj h
      rw [← hk, ← this]
      exact List.mem_cons_self _ _
    · rw [aget_cons_neg k0 v0 t n hk] at h
      exact List.mem_cons_of_mem _ (ih h)

theorem aset_same {α : Type} (l : Tbl α) (k : Str) (v : α) (h : aget l k = some v) :
    aset l k v = l := by
  induction l with
  | nil => simp [aget] at h
  | cons hd t ih =>
    obtain ⟨k0, v0⟩ := hd
    by_cases hk : k0 = k
    · rw [aget_cons_pos k0 v0 t k hk] at h
      rw [aset_cons_pos k0 v0 t k v hk, Option.some.inj h]
    · rw [aget_cons_neg k0 v0 t k hk] at h
      rw [aset_cons_neg k0 v0 t k v hk, ih h]

theorem normalizeProp_idem (e : RawProp) : normalizeProp (normalizeProp e) = normalizeProp e := by
  cases e <;> simp [normalizeProp]

theorem WfT.aget {t : Tbl RawProp} (hw : WfT t) {n : Str} {v : RawProp}
    (h : aget t n = some v) : normalizeProp v = v :=
  hw _ (aget_mem_pair t n v h)

theorem mem_aset {α : Type} (l : Tbl α) (k : Str) (v : α) (pe : Str × α)
    (h : pe ∈ aset l k v) : pe ∈ l ∨ pe.2 = v := by
  induction l with
  | nil =>
    rw [show aset ([] : Tbl α) k v = [(k, v)] from rfl] at h
    rcases List.mem_cons.mp h with h1 | h1
    · right
      rw [h1]
    · simp at h1
  | cons hd t ih =>
    obtain ⟨k0, v0⟩ := hd
    by_cases hk : k0 = k
    · rw [aset_cons_pos k0 v0 t k v hk] at h
      rcases List.mem_cons.mp h with h1 | h1
      · right
        rw [h1]
      · left
        exact List.mem_cons_of_mem _ h1
    · rw [aset_cons_neg k0 v0 t k v hk] at h
      rcases List.mem_cons.mp h with h1 | h1
      · left
        rw [h1]
        exact List.mem_cons_self _ _
      · rcases ih h1 with h2 | h2
        · left
          exact List.mem_cons_of_mem _ h2
        · right
          exact h2

theorem WfT.aset {t : Tbl RawProp} (hw : WfT t) (k : Str) (e : RawProp) :
    WfT (aset t k (normalizeProp e)) := by
  intro pe hpe
  rcases mem_aset t k (normalizeProp e) pe hpe with h1 | h1
  · exact hw pe h1
  · rw [h1]
    exact normalizeProp_idem e

theorem applyDKLoop_preserve (L : List Str) :
    ∀ (s : Schema) (f : Bool) (s1 : Schema) (f1 : Bool),
      applyDKLoop s f L = .ok (s1, f1) → WfT s.descriptor →
      s1.descriptor = s.descriptor ∧ s1.methods = s.methods ∧ s1.statics = s.statics ∧
        s1.options = s.options ∧ s1.hooks = s.hooks ∧ s1.refs = s.refs ∧
        s1.indexes = s.indexes := by
  induction L with
  | nil =>
    intro s f s1 f1 h hw
    simp only [applyDKLoop] at h
    simp at h
    rw [← h.1]
    exact ⟨rfl, rfl, rfl, rfl, rfl, rfl, rfl⟩
  | cons prop rest ih =>
    intro s f s1 f1 h hw
    simp only [applyDKLoop] at h
    rcases hga : aget s.descriptor prop with _ | rp
    · rw [hga] at h
      exact ih _ _ _ _ h hw
    · rw [hga] at h
      match rp with
      | .shorthand t => exact ih _ _ _ _ h hw
      | .virt v => exact ih _ _ _ _ h hw
      | .obj o =>
        dsimp only at h
        split_ifs at h with h1 h2 h3 h4
        · have heq : (applyKeyProp s prop o).descriptor = s.descriptor := by
            show aset s.descriptor prop (normalizeProp (.obj o)) = s.descriptor
            rw [hw.aget hga]
            exact aset_same s.descriptor prop (.obj o) hga
          have hw2 : WfT (applyKeyProp s prop o).descriptor := by
            rw [heq]
            exact hw
          have hres := ih _ _ _ _ h hw2
          exact ⟨hres.1.trans heq, hres.2.1, hres.2.2.1, hres.2.2.2.1,
            hres.2.2.2.2.1, hres.2.2.2.2.2.1, hres.2.2.2.2.2.2⟩
        · exact ih _ _ _ _ h hw

theorem applyDocumentKey_preserve (s s1 : Schema)
    (h : applyDocumentKey s = .ok s1) (hw : WfT s.descriptor)
    (hne : ∀ q ∈ s.descriptor.map Prod.fst, q ≠ ([] : Str))
    (hdk : s.key.docKeyKey ≠ []) :
    s1.descriptor = s.descriptor ∧ s1.methods = s.methods ∧ s1.statics = s.statics ∧
      s1.options = s.options ∧ s1.hooks = s.hooks ∧ s1.refs = s.refs ∧
      s1.indexes = s.indexes ∧ s1.key.docKeyKey ≠ [] := by
  unfold applyDocumentKey at h
  cases hl : applyDKLoop s false (s.descriptor.map Prod.fst) with
  | error e =>
    rw [hl] at h
    exact Except.noConfusion h
  | ok pr =>
    obtain ⟨s2, f2⟩ := pr
    rw [hl, show (Except.ok (s2, f2) : Except JsErr (Schema × Bool)) = pure (s2, f2) from rfl,
      pure_bind] at h
    dsimp only at h
    have hnd : s2.key.docKeyKey ≠ [] := by
      rcases applyDKLoop_docKey _ _ _ _ _ hl with h1 | h1
      · rw [h1.1]
        exact hdk
      · exact hne _ h1
    rw [if_neg (fun hc => hnd hc.2)] at h
    have hs1 : s1 = s2 := ((Except.ok.injEq _ _).mp h).symm
    have hp := applyDKLoop_preserve _ _ _ _ _ hl hw
    rw [hs1]
    exact ⟨hp.1, hp.2.1, hp.2.2.1, hp.2.2.2.1, hp.2.2.2.2.1, hp.2.2.2.2.2.1,
      hp.2.2.2.2.2.2, hnd⟩

theorem add_preserve (s : Schema) (k : Str) (e : RawProp) (s1 : Schema)
    (h : s.add k e = .ok s1) (hk : k ≠ []) (hg : GoodS s) :
    GoodS s1 ∧ s1.descriptor = aset s.descriptor k (normalizeProp e) ∧
      s1.methods = s.methods ∧ s1.statics = s.statics ∧ s1.options = s.options ∧
      s1.hooks = s.hooks ∧ s1.refs = s.refs ∧ s1.indexes = s.indexes := by
  unfold Schema.add at h
  rw [if_neg hk] at h
  have hw' : WfT (aset s.descriptor k (normalizeProp e)) := hg.2.1.aset k e
  have hne' : ∀ q ∈ (aset s.descriptor k (normalizeProp e)).map Prod.fst, q ≠ ([] : Str) := by
    intro q hq
    rcases mem_keys_aset _ k _ q hq with h1 | h1
    · exact hg.2.2 q h1
    · rw [h1]
      exact hk
  have hp := applyDocumentKey_preserve _ _ h hw' hne' hg.1
  refine ⟨⟨hp.2.2.2.2.2.2.2, ?_, ?_⟩, hp.1, hp.2.1, hp.2.2.1, hp.2.2.2.1,
    hp.2.2.2.2.1, hp.2.2.2.2.2.1, hp.2.2.2.2.2.2.1⟩
  · rw [hp.1]
    exact hw'
  · rw [hp.1]
    exact hne'

theorem clonePropAssign_not_mem (theirs : Tbl JsVal) :
    ∀ (mine : Tbl JsVal) (n : Str), n ∉ theirs.map Prod.fst →
      aget (clonePropAssign mine theirs) n = aget mine n := by
  induction theirs with
  | nil =>
    intro mine n _
    rfl
  | cons pe rest ih =>
    intro mine n h
    have hp : pe.1 ≠ n := fun hh => h (by rw [List.map_cons, hh]; exact List.mem_cons_self _ _)
    have hr : n ∉ rest.map Prod.fst :=
      fun hh => h (by rw [List.map_cons]; exact List.mem_cons_of_mem _ hh)
    rw [show clonePropAssign mine (pe :: rest)
        = clonePropAssign (if jsTruthy (jsGet mine pe.1) then mine else aset mine pe.1 pe.2)
            rest from rfl]
    rw [ih _ n hr]
    by_cases ht : jsTruthy (jsGet mine pe.1) = true
    · rw [if_pos ht]
    · rw [if_neg ht]
      exact aget_aset_ne mine pe.1 n pe.2 (fun hh => hp hh.symm)

theorem clonePropAssign_truthy (theirs : Tbl JsVal) :
    ∀ (mine : Tbl JsVal) (n : Str), jsTruthy (jsGet mine n) = true →
      aget (clonePropAssign mine theirs) n = aget mine n := by
  induction theirs with
  | nil =>
    intro mine n _
    rfl
  | cons pe rest ih =>
    intro mine n h
    rw [show clonePropAssign mine (pe :: rest)
        = clonePropAssign (if jsTruthy (jsGet mine pe.1) then mine else aset mine pe.1 pe.2)
            rest from rfl]
    by_cases ht : jsTruthy (jsGet mine pe.1) = true
    · rw [if_pos ht]
      exact ih mine n h
    · rw [if_neg ht]
      have hp : pe.1 ≠ n := fun hh => ht (by rw [hh]; exact h)
      have hpres : aget (aset mine pe.1 pe.2) n = aget mine n :=
        aget_aset_ne mine pe.1 n pe.2 (fun hh => hp hh.symm)
      have h2 : jsTruthy (jsGet (aset mine pe.1 pe.2) n) = true := by
        unfold jsGet
        rw [hpres]
        exact h
      rw [ih _ n h2]
      exact hpres

theorem clonePropAssign_copy (theirs : Tbl JsVal) :
    ∀ (mine : Tbl JsVal) (n : Str) (v : JsVal),
      aget mine n = none → aget theirs n = some v → (theirs.map Prod.fst).Nodup →
      aget (clonePropAssign mine theirs) n = some v := by
  induction theirs with
  | nil =>
    intro mine n v _ h2 _
    simp [aget] at h2
  | cons pe rest ih =>
    intro mine n v h1 h2 hnd
    obtain ⟨k0, v0⟩ := pe
    have hnd2 : k0 ∉ rest.map Prod.fst ∧ (rest.map Prod.fst).Nodup := by
      rw [List.map_cons] at hnd
      exact List.nodup_cons.mp hnd
    rw [show clonePropAssign mine ((k0, v0) :: rest)
        = clonePropAssign (if jsTruthy (jsGet mine k0) then mine else aset mine k0 v0)
            rest from rfl]
    by_cases hk : k0 = n
    · subst hk
      rw [aget_cons_pos k0 v0 rest k0 rfl] at h2
      have hfalse : jsTruthy (jsGet mine k0) = false := by
        unfold jsGet
        rw [h1]
        rfl
      have hcond : ¬jsTruthy (jsGet mine k0) = true := by
        rw [hfalse]
        exact Bool.false_ne_true
      rw [if_neg hcond, clonePropAssign_not_mem rest _ k0 hnd2.1, aget_aset_self mine k0 v0,
        Option.some.inj h2]
    · rw [aget_cons_neg k0 v0 rest n hk] at h2
      by_cases ht : jsTruthy (jsGet mine k0) = true
      · rw [if_pos ht]
        exact ih mine n v h1 h2 hnd2.2
      · rw [if_neg ht]
        have h1' : aget (aset mine k0 v0) n = none := by
          rw [aget_aset_ne mine k0 n v0 (fun hh => hk hh.symm)]
          exact h1
        exact ih _ n v h1' h2 hnd2.2

theorem clonePropAdd_go (Bl : Tbl RawProp) :
    ∀ (A C : Schema),
      Bl.foldlM (fun acc pe =>
        if (aget acc.descriptor pe.1).isSome then pure acc else acc.add pe.1 pe.2) A
          = .ok C →
      GoodS A → (∀ pe ∈ Bl, pe.1 ≠ ([] : Str)) → (Bl.map Prod.fst).Nodup →
      GoodS C ∧ C.methods = A.methods ∧ C.statics = A.statics ∧ C.options = A.options ∧
        C.hooks = A.hooks ∧
        (∀ n en, aget A.descriptor n = some en → aget C.descriptor n = some en) ∧
        (∀ n en, aget A.descriptor n = none → aget Bl n = some en →
          aget C.descriptor n = some (normalizeProp en)) := by
  induction Bl with
  | nil =>
    intro A C h hg _ _
    have hc : A = C := (Except.ok.injEq _ _).mp h
    rw [← hc]
    refine ⟨hg, rfl, rfl, rfl, rfl, fun n en he => he, fun n en _ hB => ?_⟩
    simp [aget] at hB
  | cons pe rest ih =>
    intro A C h hg hnames hnd
    rw [List.foldlM_cons] at h
    have hnd2 : pe.1 ∉ rest.map Prod.fst ∧ (rest.map Prod.fst).Nodup := by
      rw [List.map_cons] at hnd
      exact List.nodup_cons.mp hnd
    have hpe1 : pe.1 ≠ ([] : Str) := hnames pe (List.mem_cons_self _ _)
    have hnames2 : ∀ q ∈ rest, q.1 ≠ ([] : Str) :=
      fun q hq => hnames q (List.mem_cons_of_mem _ hq)
    by_cases hsk : (aget A.descriptor pe.1).isSome = true
    · rw [if_pos hsk, pure_bind] at h
      have hres := ih A C h hg hnames2 hnd2.2
      refine ⟨hres.1, hres.2.1, hres.2.2.1, hres.2.2.2.1, hres.2.2.2.2.1,
        hres.2.2.2.2.2.1, ?_⟩
      intro n en hA hB
      obtain ⟨k0, v0⟩ := pe
      by_cases hk : k0 = n
      · rw [hk] at hsk
        rw [hA] at hsk
        exact absurd hsk (by simp [Option.isSome])
      · rw [aget_cons_neg k0 v0 rest n hk] at hB
        exact hres.2.2.2.2.2.2 n en hA hB
    · rw [if_neg hsk] at h
      cases ha : A.add pe.1 pe.2 with
      | error e =>
        rw [ha] at h
        exact Except.noConfusion h
      | ok A2 =>
        rw [ha, show (Except.ok A2 : Except JsErr Schema) = pure A2 from rfl, pure_bind] at h
        have hAnone : aget A.descriptor pe.1 = none := by
          cases hx : aget A.descriptor pe.1 with
          | none => rfl
          | some w =>
            rw [hx] at hsk
            exact absurd rfl hsk
        have hstep := add_preserve A pe.1 pe.2 A2 ha hpe1 hg
        have hres := ih A2 C h hstep.1 hnames2 hnd2.2
        refine ⟨hres.1, hres.2.1.trans hstep.2.2.1, hres.2.2.1.trans hstep.2.2.2.1,
          hres.2.2.2.1.trans hstep.2.2.2.2.1, hres.2.2.2.2.1.trans hstep.2.2.2.2.2.1,
          ?_, ?_⟩
        · intro n en hA
          have hne : pe.1 ≠ n := by
            intro hh
            rw [hh] at hAnone
            rw [hAnone] at hA
            exact Option.noConfusion hA
          have hA2 : aget A2.descriptor n = some en := by
            rw [hstep.2.1, aget_aset_ne A.descriptor pe.1 n _ (fun hh => hne hh.symm)]
            exact hA
          exact hres.2.2.2.2.2.1 n en hA2
        · intro n en hA hB
          obtain ⟨k0, v0⟩ := pe
          by_cases hk : k0 = n
          · rw [aget_cons_pos k0 v0 rest n hk] at hB
            have hen : v0 = en := Option.some.inj hB
            have hA2 : aget A2.descriptor n = some (normalizeProp en) := by
              rw [hstep.2.1, ← hk, ← hen]
              exact aget_aset_self A.descriptor k0 (normalizeProp v0)
            exact hres.2.2.2.2.2.1 n (normalizeProp en) hA2
          · rw [aget_cons_neg k0 v0 rest n hk] at hB
            have hA2 : aget A2.descriptor n = none := by
              rw [hstep.2.1, aget_aset_ne A.descriptor k0 n _ (fun hh => hk hh.symm)]
              exact hA
            exact hres.2.2.2.2.2.2 n en hA2 hB

theorem hookAdd_fields (s : Schema) (ph : HookPhase) (n : Str) (fn : JsVal) :
    (s.hookAdd ph n fn).methods = s.methods ∧ (s.hookAdd ph n fn).statics = s.statics ∧
      (s.hookAdd ph n fn).descriptor = s.descriptor := by
  unfold Schema.hookAdd
  cases aget s.hooks (hookKey ph n) <;> exact ⟨rfl, rfl, rfl⟩

theorem replayFns_fields (fns : List JsVal) :
    ∀ (s : Schema) (ph : HookPhase) (n : Str),
      (fns.foldl (fun a fn => a.hookAdd ph n fn) s).methods = s.methods ∧
        (fns.foldl (fun a fn => a.hookAdd ph n fn) s).statics = s.statics ∧
        (fns.foldl (fun a fn => a.hookAdd ph n fn) s).descriptor = s.descriptor := by
  induction fns with
  | nil => intro s ph n; exact ⟨rfl, rfl, rfl⟩
  | cons fn rest ih =>
    intro s ph n
    rw [List.foldl_cons]
    have h1 := hookAdd_fields s ph n fn
    have h2 := ih (s.hookAdd ph n fn) ph n
    exact ⟨h2.1.trans h1.1, h2.2.1.trans h1.2.1, h2.2.2.trans h1.2.2⟩

theorem replayHooks_fields (hks : Tbl HookEntry) :
    ∀ (s : Schema),
      (replayHooks s hks).methods = s.methods ∧ (replayHooks s hks).statics = s.statics ∧
        (replayHooks s hks).descriptor = s.descriptor := by
  induction hks with
  | nil => intro s; exact ⟨rfl, rfl, rfl⟩
  | cons pe rest ih =>
    intro s
    have hstep := replayFns_fields pe.2.fns s pe.2.hook pe.2.name
    have hrec := ih (pe.2.fns.foldl (fun a fn => a.hookAdd pe.2.hook pe.2.name fn) s)
    exact ⟨hrec.1.trans hstep.1, hrec.2.1.trans hstep.2.1, hrec.2.2.trans hstep.2.2⟩

/-- C5 (amended): `A.extend(B)` copies onto `A` each descriptor,
statics, and methods entry whose name is present on `B` and whose slot
on `A` is absent — for statics, absent or falsy, since the source
tests the slot with a falsiness check and `static` accepts falsy
values — and never overwrites an entry whose value on `A` is truthy
(methods and descriptor entries always are).  Stated for well-formed
schemas: the receiver has a non-empty document key, normalized
descriptor entries and non-empty property names, and the donor's
tables have distinct names, as every schema built through the API
does. -/
theorem extend_spec (A B A2 : Schema)
    (hg : GoodS A)
    (hBn : ∀ pe ∈ B.descriptor, pe.1 ≠ ([] : Str))
    (hBd : (B.descriptor.map Prod.fst).Nodup)
    (hMd : (B.methods.map Prod.fst).Nodup)
    (hSd : (B.statics.map Prod.fst).Nodup)
    (h : A.extend (.schemaA B) = .ok A2) :
    (∀ n, jsTruthy (jsGet A.methods n) = true → aget A2.methods n = aget A.methods n) ∧
      (∀ n v, aget A.methods n = none → aget B.methods n = some v →
        aget A2.methods n = some v) ∧
      (∀ n, jsTruthy (jsGet A.statics n) = true → aget A2.statics n = aget A.statics n) ∧
      (∀ n v, aget A.statics n = none → aget B.statics n = some v →
        aget A2.statics n = some v) ∧
      (∀ n en, aget A.descriptor n = some en → aget A2.descriptor n = some en) ∧
      (∀ n en, aget A.descriptor n = none → aget B.descriptor n = some en →
        aget A2.descriptor n = some (normalizeProp en)) := by
  have h2 : extendSchema A B = .ok A2 := h
  clear h
  unfold extendSchema at h2
  cases hc : clonePropAdd A B with
  | error e =>
    rw [hc] at h2
    exact Except.noConfusion h2
  | ok s1 =>
    rw [hc, show (Except.ok s1 : Except JsErr Schema) = pure s1 from rfl, pure_bind] at h2
    dsimp only at h2
    have hA2 := (Except.ok.injEq _ _).mp h2
    have hgo := clonePropAdd_go B.descriptor A s1 hc hg hBn hBd
    have hXm : A2.methods = clonePropAssign s1.methods B.methods := by
      rw [← hA2]
      exact (replayHooks_fields B.hooks _).1
    have hXs : A2.statics = clonePropAssign s1.statics B.statics := by
      rw [← hA2]
      exact (replayHooks_fields B.hooks _).2.1
    have hXd : A2.descriptor = s1.descriptor := by
      rw [← hA2]
      exact (replayHooks_fields B.hooks _).2.2
    refine ⟨?_, ?_, ?_, ?_, ?_, ?_⟩
    · intro n htr
      rw [hXm, hgo.2.1]
      exact clonePropAssign_truthy B.methods A.methods n htr
    · intro n v hA hB
      rw [hXm, hgo.2.1]
      exact clonePropAssign_copy B.methods A.methods n v hA hB hMd
    · intro n htr
      rw [hXs, hgo.2.2.1]
      exact clonePropAssign_truthy B.statics A.statics n htr
    · intro n v hA hB
      rw [hXs, hgo.2.2.1]
      exact clonePropAssign_copy B.statics A.statics n v hA hB hSd
    · intro n en hA
      rw [hXd]
      exact hgo.2.2.2.2.2.1 n en hA
    · intro n en hA hB
      rw [hXd]
      exact hgo.2.2.2.2.2.2 n en hA hB

/-- C5 counterexample: the claim fails as stated.  Build A and B from
the same one-property descriptor, give A the static `flag` with value
`false` (a legal static value) and B the static `flag` with value
`bar`.  `flag` is present on A, yet after `A.extend(B)` it holds `bar`:
the falsiness test of `_cloneProp` overwrote it. -/
theorem extend_spec_cex :
    (match mkSchema demoDesc {} with
      | .ok a0 =>
        match a0.static (.strN (chars ("flag"))) (.boolV false) with
        | .ok a1 =>
          match mkSchema demoDesc {} with
          | .ok b0 =>
            match b0.static (.strN (chars ("flag"))) (.strV (chars ("bar"))) with
            | .ok b1 =>
              match a1.extend (.schemaA b1) with
              | .ok a2 => some (aget a2.statics (chars ("flag")))
              | .error _ => none
            | .error _ => none
          | .error _ => none
        | .error _ => none
      | .error _ => none) = some (some (.strV (chars ("bar")))) := by decide

/-- C5 witness: the extend theorem applied to the claim's scenario —
`A.methods.foo` survives unchanged and `A.methods.bar` arrives from
B. -/
theorem extend_spec_witness :
    (match wExtA.extend (.schemaA wExtB) with
      | .ok a2 => some (aget a2.methods (chars ("foo")), aget a2.methods (chars ("bar")))
      | .error _ => none)
      = some (some (.fnV 1), some (.fnV 3)) := by
  cases he : wExtA.extend (.schemaA wExtB) with
  | error e =>
    have hd : isOkB (wExtA.extend (.schemaA wExtB)) = true := by decide
    rw [he] at hd
    exact Bool.noConfusion hd
  | ok a2 =>
    dsimp only
    have hs := extend_spec wExtA wExtB a2 (by decide) (by decide) (by decide) (by decide)
      (by decide) he
    have h1 : aget a2.methods (chars ("foo")) = aget wExtA.methods (chars ("foo")) :=
      hs.1 (chars ("foo")) (by decide)
    have h2 : aget a2.methods (chars ("bar")) = some (.fnV 3) :=
      hs.2.1 (chars ("bar")) (.fnV 3) (by decide) (by decide)
    rw [h1, h2]
    decide
